import Mathlib

/-!
Verification of the sfrog crawler core against its specification.

The Python source is shallowly embedded:
* Python strings are lists of Unicode code points (`Str := List Nat`);
  string operations (lowercasing, splitting) are modelled on ASCII,
  which covers every character the URL and header logic inspects.
* The standard-library URL functions that `sfrog/utils/url_tools.py`
  delegates to (`urllib.parse.urlparse` / `urlunparse`) are modelled
  after their CPython 3.11 algorithms, with the scheme lists
  (`uses_netloc`, `uses_params`) of the stock 3.11.2 module (scheme,
  `//`-netloc, fragment, query, params splitting; `uses_netloc`-aware
  unsplitting).  The model covers inputs free of C0-control
  characters, `\t`, `\r`, `\n` (which `urlsplit` strips) and of
  bracketed IPv6 hosts (which take a validation path that can raise).
* External collaborators with no algorithmic content for the claims
  (the network, `hashlib.md5`, `selectolax` HTML parsing, the robots
  library, `xmltodict`'s raw XML reader, `normalize_url`'s
  `urljoin`+`yarl` resolution, byte decoding) are abstracted as fields
  of an environment record `Env`; theorems quantify over all
  environments.
* The asyncio worker pool is modelled as sequential processing of
  frontier entries: on the event loop only one worker body runs between
  suspension points, and every mutation of the shared sets happens
  inside such an atomic region.
-/

namespace Sfrog

/-- Python strings modelled as lists of Unicode code points. -/
abbrev Str := List Nat

/-- Code-point list of a Lean string literal, for readable constants. -/
def pyStr (s : String) : Str := s.toList.map Char.toNat

/-- Model of Python `str.lower` on one code point, restricted to ASCII:
uppercase letters A-Z map to a-z, everything else is unchanged. -/
def pyLower (n : Nat) : Nat := if 65 ≤ n ∧ n ≤ 90 then n + 32 else n

/-- Model of Python `str.lower` on a string. -/
def lowerStr (s : Str) : Str := s.map pyLower

/-- ASCII letter, as checked by `str.isascii() and str.isalpha()`. -/
def isAsciiAlpha (n : Nat) : Bool :=
  (decide (65 ≤ n) && decide (n ≤ 90)) || (decide (97 ≤ n) && decide (n ≤ 122))

/-- ASCII digit. -/
def isAsciiDigit (n : Nat) : Bool := decide (48 ≤ n) && decide (n ≤ 57)

/-- Characters allowed in a URL scheme by `urllib.parse`
(`scheme_chars`: letters, digits, `+`, `-`, `.`). -/
def schemeChar (n : Nat) : Bool :=
  isAsciiAlpha n || isAsciiDigit n || n == 43 || n == 45 || n == 46

/-- Split a list at the first element satisfying `p`: returns the
prefix of elements failing `p` and the suffix starting at the first
element satisfying `p` (empty if none does). -/
def breakAt (p : Nat → Bool) : Str → Str × Str
  | [] => ([], [])
  | c :: cs =>
    if p c then ([], c :: cs)
    else
      let r := breakAt p cs
      (c :: r.1, r.2)

/-- Split off the scheme, as `urllib.parse.urlsplit` does: the prefix
before the first `:` is taken as the scheme when it is nonempty, starts
with an ASCII letter and consists of scheme characters; the scheme is
lowercased.  Returns `([], url)` when there is no scheme. -/
def splitScheme (u : Str) : Str × Str :=
  match breakAt (· == 58) u with
  | (pre, 58 :: rest) =>
    if !pre.isEmpty && isAsciiAlpha (pre.headD 0) && pre.all schemeChar then
      (lowerStr pre, rest)
    else ([], u)
  | _ => ([], u)

/-- Delimiters ending the netloc in `urllib.parse._splitnetloc`:
`/`, `?`, `#`. -/
def netlocDelim (n : Nat) : Bool := n == 47 || n == 63 || n == 35

/-- Netloc extraction of `urlsplit`: when the scheme-stripped URL
starts with `//` (`url[:2] == '//'`), the netloc runs from position 2
up to the next `/`, `?` or `#`. -/
def splitNetlocPart (u : Str) : Str × Str :=
  if u.take 2 = [47, 47] then breakAt netlocDelim (u.drop 2) else ([], u)

/-- Fragment split of `urlsplit`: `url.split('#', 1)` when `#` occurs. -/
def splitFrag (u : Str) : Str × Str :=
  match breakAt (· == 35) u with
  | (a, 35 :: b) => (a, b)
  | _ => (u, [])

/-- Query split of `urlsplit`: `url.split('?', 1)` when `?` occurs. -/
def splitQuery (u : Str) : Str × Str :=
  match breakAt (· == 63) u with
  | (a, 63 :: b) => (a, b)
  | _ => (u, [])

/-- Result of `urllib.parse.urlsplit`. -/
structure SplitUrl where
  scheme : Str
  netloc : Str
  path : Str
  query : Str
  fragment : Str
deriving DecidableEq, Repr

/-- Model of `urllib.parse.urlsplit` (scheme, then `//`-netloc, then
fragment, then query; the rest is the path). -/
def urlsplit (u : Str) : SplitUrl :=
  let s1 := splitScheme u
  let s2 := splitNetlocPart s1.2
  let s3 := splitFrag s2.2
  let s4 := splitQuery s3.1
  { scheme := s1.1, netloc := s2.1, path := s4.1, query := s4.2, fragment := s3.2 }

/-- Split a list around its last `/` (code 47): `some (pre, seg)` with
`u = pre ++ 47 :: seg` and no `/` in `seg`, or `none` when `u` has no `/`. -/
def splitLastSlash : Str → Option (Str × Str)
  | [] => none
  | c :: rest =>
    match splitLastSlash rest with
    | some pr => some (c :: pr.1, pr.2)
    | none => if c == 47 then some ([], rest) else none

/-- Model of `urllib.parse._splitparams`: split params off the path at
the first `;` occurring in the segment after the last `/` (or anywhere
when the path has no `/`). -/
def splitparams (u : Str) : Str × Str :=
  match splitLastSlash u with
  | some (pre, seg) =>
    match breakAt (· == 59) seg with
    | (a, 59 :: b) => (pre ++ 47 :: a, b)
    | _ => (u, [])
  | none =>
    match breakAt (· == 59) u with
    | (a, 59 :: b) => (a, b)
    | _ => (u, [])

/-- Result of `urllib.parse.urlparse`. -/
structure UrlParts where
  scheme : Str
  netloc : Str
  path : Str
  params : Str
  query : Str
  fragment : Str
deriving DecidableEq, Repr

/-- Schemes of `urllib.parse.uses_params` (CPython 3.11, stock
3.11.2 module). -/
def usesParams : List Str :=
  [pyStr "", pyStr "ftp", pyStr "hdl", pyStr "prospero", pyStr "http",
   pyStr "imap", pyStr "https", pyStr "shttp", pyStr "rtsp",
   pyStr "rtspu", pyStr "sip", pyStr "sips", pyStr "mms", pyStr "sftp",
   pyStr "tel"]

/-- Model of `urllib.parse.urlparse`: `urlsplit` followed by the
params split on the path (only for a `uses_params` scheme and when the
path contains `;`). -/
def urlparse (u : Str) : UrlParts :=
  let s := urlsplit u
  let pp :=
    if usesParams.contains s.scheme && s.path.contains 59 then splitparams s.path
    else (s.path, [])
  { scheme := s.scheme, netloc := s.netloc, path := pp.1,
    params := pp.2, query := s.query, fragment := s.fragment }

/-- Schemes of `urllib.parse.uses_netloc` (CPython 3.11, stock
3.11.2 module). -/
def usesNetloc : List Str :=
  [pyStr "", pyStr "ftp", pyStr "http", pyStr "gopher", pyStr "nntp",
   pyStr "telnet", pyStr "imap", pyStr "wais", pyStr "file", pyStr "mms",
   pyStr "https", pyStr "shttp", pyStr "snews", pyStr "prospero",
   pyStr "rtsp", pyStr "rtspu", pyStr "rsync", pyStr "svn",
   pyStr "svn+ssh", pyStr "sftp", pyStr "nfs", pyStr "git", pyStr "git+ssh",
   pyStr "ws", pyStr "wss"]

/-- Model of `urllib.parse.urlunsplit` (Python 3.11): the `//` and the
netloc are emitted when the netloc is nonempty, or when the scheme is a
netloc-using scheme and the path does not already start with `//`; a
path not starting with `/` gets `/` prepended in that case. -/
def urlunsplit (scheme netloc path query fragment : Str) : Str :=
  let url :=
    if !netloc.isEmpty || (!scheme.isEmpty && usesNetloc.contains scheme && !(path.take 2 == [47, 47])) then
      47 :: 47 :: (netloc ++ (if !path.isEmpty && !(path.headD 0 == 47) then 47 :: path else path))
    else path
  let url := if !scheme.isEmpty then scheme ++ 58 :: url else url
  let url := if !query.isEmpty then url ++ 63 :: query else url
  if !fragment.isEmpty then url ++ 35 :: fragment else url

/-- Model of `urllib.parse.urlunparse`: reattach params with `;`, then
`urlunsplit`. -/
def urlunparse (scheme netloc path params query fragment : Str) : Str :=
  urlunsplit scheme netloc (if !params.isEmpty then path ++ 59 :: params else path) query fragment

/-- Embedding of `sfrog.utils.url_tools.canonicalize`: lowercase the
scheme and keep it when it is `http`/`https` (the anchored regex
`^https?$` is exactly this equality test), otherwise force `http`;
lowercase the netloc; default an empty path to `/`; keep the query;
drop params and fragment. -/
def canonicalize (u : Str) : Str :=
  let parsed := urlparse u
  let ls := lowerStr parsed.scheme
  let scheme := if ls == pyStr "http" || ls == pyStr "https" then ls else pyStr "http"
  let netloc := lowerStr parsed.netloc
  let path := if parsed.path.isEmpty then [47] else parsed.path
  urlunparse scheme netloc path [] parsed.query []

/-- Embedding of `sfrog.utils.url_tools.is_same_domain`: netloc
equality of the two parsed URLs. -/
def isSameDomain (u b : Str) : Bool := (urlparse u).netloc == (urlparse b).netloc

/-- Embedding of `sfrog.utils.url_tools.is_allowed_scheme`: the parsed
scheme is `http`, `https` or empty. -/
def isAllowedScheme (u : Str) : Bool :=
  let s := (urlparse u).scheme
  s == pyStr "http" || s == pyStr "https" || s == ([] : Str)

/-! ### Python dicts

`aiohttp` response headers reach the crawler through the plain-dict
comprehension in `Fetcher.fetch`; a Python `dict` with string keys is
modelled as an insertion-ordered association list where assigning an
existing key overwrites in place and lookup compares keys for string
equality. -/

/-- Python `d[k] = v` on a string-keyed dict. -/
def dictInsert (d : List (Str × Str)) (k v : Str) : List (Str × Str) :=
  match d with
  | [] => [(k, v)]
  | (k2, v2) :: rest =>
    if k2 == k then (k2, v) :: rest else (k2, v2) :: dictInsert rest k v

/-- The dict built by the comprehension over `resp.headers.items()` in
`Fetcher.fetch` (`{k: v for k, v in resp.headers.items()}`). -/
def dictOfPairs (items : List (Str × Str)) : List (Str × Str) :=
  items.foldl (fun d kv => dictInsert d kv.1 kv.2) []

/-- Python `d.get(k, dflt)` on a string-keyed dict: exact string
equality of keys. -/
def dictGet (d : List (Str × Str)) (k dflt : Str) : Str :=
  match d.find? (fun kv => kv.1 == k) with
  | some kv => kv.2
  | none => dflt

/-! ### Sitemap parsing

`sfrog/crawler/sitemap.py` drives `xmltodict.parse` and then walks the
resulting nested value.  The result shape of `xmltodict` is modelled by
`Xml`; the raw XML reader itself is an abstract parameter that either
returns such a value or fails (raises).  `normalize_url` resolves a
`loc` against the base URL through `urljoin` and `yarl`, external code
abstracted as the parameter `norm`. -/

/-- Values produced by `xmltodict.parse`: strings, dicts, lists, and
`None` for empty elements. -/
inductive Xml where
  | text : Str → Xml
  | node : List (Str × Xml) → Xml
  | arr : List Xml → Xml
  | null : Xml

/-- Python `d.get(k)` / `k in d` on an xmltodict dict. -/
def xmlLookup (d : List (Str × Xml)) (k : Str) : Option Xml :=
  (d.find? (fun kv => kv.1 == k)).map (·.2)

/-- The `entries = container.get(key, []); if isinstance(entries, dict):
entries = [entries]` step of `parse_sitemap`.  Iterating a non-list,
non-dict value would raise inside the subsequent loop (`.get` on a
string element, or iteration of `None`), modelled as an error. -/
def entryList : Option Xml → Except Str (List Xml)
  | none => .ok []
  | some (Xml.node d) => .ok [Xml.node d]
  | some (Xml.arr l) => .ok l
  | some (Xml.text t) => if t.isEmpty then .ok [] else .error (pyStr "AttributeError")
  | some Xml.null => .error (pyStr "TypeError")

/-- The `for entry in entries` loop body of `parse_sitemap`: read
`entry.get("loc")` and, when truthy, append the normalized URL.  A
non-dict entry raises `AttributeError`; a truthy non-string `loc`
would raise inside `normalize_url`. -/
def locsOf (norm : Str → Str → Str) (base : Str) : List Xml → Except Str (List Str)
  | [] => .ok []
  | Xml.node d :: rest =>
    match locsOf norm base rest with
    | .error e => .error e
    | .ok tail =>
      match xmlLookup d (pyStr "loc") with
      | some (Xml.text s) => if s.isEmpty then .ok tail else .ok (norm base s :: tail)
      | some Xml.null => .ok tail
      | none => .ok tail
      | some (Xml.node dd) => if dd.isEmpty then .ok tail else .error (pyStr "TypeError")
      | some (Xml.arr ll) => if ll.isEmpty then .ok tail else .error (pyStr "TypeError")
  | _ :: _ => .error (pyStr "AttributeError")

/-- The dispatch of `parse_sitemap` on the parsed document: the
`urlset` branch, else the `sitemapindex` branch, else an empty list.
A non-dict value under the key raises on its `.get`. -/
def sitemapFromXml (norm : Str → Str → Str) (base : Str) : Xml → Except Str (List Str)
  | Xml.node d =>
    match xmlLookup d (pyStr "urlset") with
    | some (Xml.node ud) =>
      match entryList (xmlLookup ud (pyStr "url")) with
      | .ok es => locsOf norm base es
      | .error e => .error e
    | some _ => .error (pyStr "AttributeError")
    | none =>
      match xmlLookup d (pyStr "sitemapindex") with
      | some (Xml.node sd) =>
        match entryList (xmlLookup sd (pyStr "sitemap")) with
        | .ok es => locsOf norm base es
        | .error e => .error e
      | some _ => .error (pyStr "AttributeError")
      | none => .ok []
  | _ => .error (pyStr "TypeError")

/-- Embedding of `sfrog.crawler.sitemap.parse_sitemap`: run the XML
reader (which may fail — the function body has no exception handler of
its own, so a parse failure propagates to the caller) and walk the
document. -/
def parseSitemap (xp : Str → Except Str Xml) (norm : Str → Str → Str)
    (base text : Str) : Except Str (List Str) :=
  match xp text with
  | .ok data => sitemapFromXml norm base data
  | .error e => .error e

/-- The call site in `CrawlManager._prepare_seed_urls`: `parse_sitemap`
wrapped in `try/except Exception`, substituting the empty list on any
failure. -/
def seedUrlsOfSitemap (xp : Str → Except Str Xml) (norm : Str → Str → Str)
    (base text : Str) : List Str :=
  match parseSitemap xp norm base text with
  | .ok us => us
  | .error _ => []

/-! ### Fetching and page records -/

/-- Outcome of one HTTP exchange as supplied by the environment
(network plus `aiohttp`); `Fetcher.fetch` copies these fields into a
`FetchResult` whose `url` field is always the requested URL. -/
structure FetchSpec where
  status : Option Nat
  headers : List (Str × Str)
  content : Option (List Nat)
  elapsed : Nat
  redirectedUrl : Option Str
  error : Option Str
deriving DecidableEq, Repr

/-- Embedding of `sfrog.crawler.fetcher.FetchResult`.  `elapsed` is a
float in the source, carried opaquely; it is modelled by an abstract
numeric tag. -/
structure FetchResult where
  url : Str
  status : Option Nat
  headers : List (Str × Str)
  content : Option (List Nat)
  elapsed : Nat
  redirectedUrl : Option Str
  error : Option Str
deriving DecidableEq, Repr

/-- Embedding of `sfrog.crawler.parser.ParsedPage`. -/
structure ParsedPage where
  url : Str
  title : Option Str
  metaDescription : Option Str
  canonical : Option Str
  headings : List (Str × Str)
  internalLinks : List Str
  externalLinks : List Str
  images : List Str
deriving DecidableEq, Repr

/-- Embedding of `sfrog.crawler.manager.PageData`. -/
structure PageData where
  url : Str
  status : Option Nat
  title : Option Str
  metaDescription : Option Str
  canonical : Option Str
  headings : List (Str × Str)
  internalLinks : List Str
  externalLinks : List Str
  h1Count : Nat
  contentHash : Option Str
  responseTime : Nat
  redirectTarget : Option Str
  error : Option Str
deriving DecidableEq, Repr

/-- External collaborators of the crawl manager, abstracted:
the network (`fetch`), byte decoding with `errors="ignore"` (never
raises), the `hashlib.md5` hex digest, `parse_html` wrapped in its
`try/except` (`none` on failure or gate), the robots evaluation
(`RobotsRules.allows`, permissive on any internal failure), the
`xmltodict` reader, and `normalize_url`. -/
structure Env where
  fetch : Str → FetchSpec
  decode : List Nat → Str
  md5 : List Nat → Str
  parseHtml : Str → Str → Str → Option ParsedPage
  robotsAllows : Str → Bool
  xmlParse : Str → Except Str Xml
  norm : Str → Str → Str

/-- Crawl construction inputs relevant to the pipeline logic
(`threads`, `user_agent` and `timeout` only shape the I/O layer). -/
structure Config where
  baseUrl : Str
  maxDepth : Nat

/-- Embedding of `Fetcher.fetch`: every exit path of the source builds
its `FetchResult` with `url=url` (the requested URL). -/
def runFetch (env : Env) (url : Str) : FetchResult :=
  let sp := env.fetch url
  { url := url, status := sp.status, headers := sp.headers,
    content := sp.content, elapsed := sp.elapsed,
    redirectedUrl := sp.redirectedUrl, error := sp.error }

/-- ASCII whitespace for `str.strip()`. -/
def isSpaceA (n : Nat) : Bool :=
  n == 32 || n == 9 || n == 10 || n == 13 || n == 11 || n == 12

/-- Python `str.strip()` (ASCII whitespace). -/
def stripWs (s : Str) : Str :=
  ((s.dropWhile (fun c => isSpaceA c)).reverse.dropWhile (fun c => isSpaceA c)).reverse

/-- Python `needle in hay` on strings. -/
def strContains (needle : Str) : Str → Bool
  | [] => needle.isEmpty
  | c :: rest => needle.isPrefixOf (c :: rest) || strContains needle rest

/-- Embedding of `CrawlManager._maybe_parse_html`: the Content-Type
gate (`headers.get("Content-Type", "").split(";")[0].strip().lower()`,
parse only when empty or containing `html`), the empty-body guard, and
the `try/except` around decode-and-parse. -/
def maybeParseHtml (env : Env) (base url : Str) (result : FetchResult) : Option ParsedPage :=
  let contentType :=
    lowerStr (stripWs (breakAt (· == 59) (dictGet result.headers (pyStr "Content-Type") [])).1)
  if !contentType.isEmpty && !strContains (pyStr "html") contentType then none
  else
    match result.content with
    | none => none
    | some c => if c.isEmpty then none else env.parseHtml url base (env.decode c)

/-- Embedding of `CrawlManager._build_page`. -/
def buildPage (result : FetchResult) (parsed : Option ParsedPage)
    (contentHash : Option Str) : PageData :=
  let headings := match parsed with | some p => p.headings | none => []
  { url := result.url
    status := result.status
    title := match parsed with | some p => p.title | none => none
    metaDescription := match parsed with | some p => p.metaDescription | none => none
    canonical := match parsed with | some p => p.canonical | none => none
    headings := headings
    internalLinks := match parsed with | some p => p.internalLinks | none => []
    externalLinks := match parsed with | some p => p.externalLinks | none => []
    h1Count := (headings.filter (fun t => t.1 == pyStr "h1")).length
    contentHash := contentHash
    responseTime := result.elapsed
    redirectTarget := result.redirectedUrl
    error := result.error }

/-- The mutable state owned by `CrawlManager` for one `crawl()` call,
plus two ghost logs: `putLog` records the URL of every `queue.put`,
and `procLog` records every URL that passes the initial visited-check
of `_process_url`.  The ghost logs have no influence on behaviour. -/
structure CrawlState where
  queue : List (Str × Nat × Option Str)
  visited : List Str
  enqueued : List Str
  edges : List (Str × Str)
  pages : List PageData
  duplicateMap : List (Str × List Str)
  brokenLinks : List PageData
  putLog : List Str
  procLog : List Str
deriving DecidableEq, Repr

/-- Python `self.duplicate_map.setdefault(content_hash, []).append(url)`:
append to the existing bucket in place, or create a new binding at the
end. -/
def dmAppend (m : List (Str × List Str)) (h u : Str) : List (Str × List Str) :=
  match m with
  | [] => [(h, [u])]
  | (k, vs) :: rest => if k == h then (k, vs ++ [u]) :: rest else (k, vs) :: dmAppend rest h u

/-- The link-harvesting loop at the end of `_process_url`: skip links
failing the scheme filter; enqueue links that are unseen and same-host,
at depth+1 with the processed URL as source. -/
def harvestLinks (base url : Str) (depth : Nat) : List Str → CrawlState → CrawlState
  | [], st => st
  | link :: rest, st =>
    harvestLinks base url depth rest
      (if !isAllowedScheme link then st
       else if link ∉ st.visited ∧ link ∉ st.enqueued ∧ isSameDomain link base then
        { st with
          queue := st.queue ++ [(link, depth + 1, some url)]
          enqueued := link :: st.enqueued
          putLog := st.putLog ++ [link] }
       else st)

/-- The `if source: self.edges.append((source, url))` step of
`_process_url` (a `None` or empty source is falsy). -/
def recordEdge (st : CrawlState) (url : Str) (source : Option Str) : CrawlState :=
  match source with
  | some s => if s.isEmpty then st else { st with edges := st.edges ++ [(s, url)] }
  | none => st

/-- The `content_hash`/`parsed` pair computed by `_process_url`: both
stay `None` on a falsy body. -/
def hashParse (env : Env) (base url : Str) (result : FetchResult) :
    Option Str × Option ParsedPage :=
  match result.content with
  | some c =>
    if c.isEmpty then (none, none)
    else (some (env.md5 c), maybeParseHtml env base url result)
  | none => (none, none)

/-- The `if content_hash: duplicate_map.setdefault(...).append(url)`
step (a truthy hash is a nonempty digest string). -/
def applyDup (st : CrawlState) (url : Str) : Option Str → CrawlState
  | some h =>
    if h.isEmpty then st else { st with duplicateMap := dmAppend st.duplicateMap h url }
  | none => st

/-- Appending the built page to `pages` and, on a truthy status ≥ 400,
to `broken_links`. -/
def recordPage (st : CrawlState) (page : PageData) : CrawlState :=
  let st := { st with pages := st.pages ++ [page] }
  match page.status with
  | some n => if n ≠ 0 ∧ 400 ≤ n then { st with brokenLinks := st.brokenLinks ++ [page] } else st
  | none => st

/-- The fetch-and-record tail of `_process_url` (everything after the
edge append): fetch, hash and parse the body, update the duplicate
map, emit the page record, dispatch progress (no state effect), and
harvest links when parsing succeeded. -/
def fetchPhase (env : Env) (base : Str) (st : CrawlState) (url : Str) (depth : Nat) :
    CrawlState :=
  let result := runFetch env url
  let hp := hashParse env base url result
  let st := applyDup st url hp.1
  let st := recordPage st (buildPage result hp.2 hp.1)
  match hp.2 with
  | none => st
  | some parsed => harvestLinks base url depth parsed.internalLinks st

/-- Embedding of `CrawlManager._process_url` on one dequeued frontier
entry.  The robots object always exists after seeding, so the
`if self.robots and not self.robots.allows(url)` gate reduces to the
evaluation. -/
def processUrl (env : Env) (cfg : Config) (base : Str) (st : CrawlState)
    (url : Str) (depth : Nat) (source : Option Str) : CrawlState :=
  if url ∈ st.visited then st
  else
    let st := { st with visited := url :: st.visited, procLog := st.procLog ++ [url] }
    if !env.robotsAllows url then st
    else if cfg.maxDepth < depth then st
    else fetchPhase env base (recordEdge st url source) url depth

/-- Sitemap seeding loop of `_prepare_seed_urls`: enqueue each
discovered URL that is same-host and not already enqueued, at depth 0
with no source. -/
def seedFold (base : Str) : List Str → CrawlState → CrawlState
  | [], st => st
  | url :: rest, st =>
    seedFold base rest
      (if isSameDomain url base ∧ url ∉ st.enqueued then
        { st with
          queue := st.queue ++ [(url, 0, none)]
          enqueued := url :: st.enqueued
          putLog := st.putLog ++ [url] }
       else st)

/-- Model of yarl's `URL(base).with_path(p)` as used for the robots and
sitemap URLs: same scheme and authority, the given path, no query or
fragment.  The value only feeds the abstract fetch. -/
def withPath (u p : Str) : Str :=
  let parts := urlparse u
  urlunsplit parts.scheme parts.netloc p [] []

/-- Embedding of `CrawlManager._prepare_seed_urls`: enqueue the
canonicalized base at depth 0; fetch robots (its outcome is captured by
`env.robotsAllows`); fetch the sitemap and, when the response has a
truthy status below 400 and a nonempty body, parse it under the
caller's `try/except` and seed the resulting URLs. -/
def seedState (env : Env) (cfg : Config) : CrawlState :=
  let base := canonicalize cfg.baseUrl
  let st : CrawlState :=
    { queue := [(base, 0, none)], visited := [], enqueued := [base],
      edges := [], pages := [], duplicateMap := [], brokenLinks := [],
      putLog := [base], procLog := [] }
  let smResult := runFetch env (withPath base (pyStr "/sitemap.xml"))
  match smResult.status with
  | some code =>
    if code ≠ 0 ∧ code < 400 then
      match smResult.content with
      | some c =>
        if c.isEmpty then st
        else seedFold base (seedUrlsOfSitemap env.xmlParse env.norm base (env.decode c)) st
      | none => st
    else st
  | none => st

/-- The worker pool consuming the frontier, modelled as sequential
FIFO processing: on the event loop one worker body runs at a time and
every mutation of the shared sets happens between suspension points.
Fuel bounds the number of processed entries; all invariants are proved
for every fuel. -/
def crawlLoop (env : Env) (cfg : Config) : Nat → CrawlState → CrawlState
  | 0, st => st
  | fuel + 1, st =>
    match st.queue with
    | [] => st
    | (url, depth, source) :: rest =>
      crawlLoop env cfg fuel (processUrl env cfg (canonicalize cfg.baseUrl) { st with queue := rest } url depth source)

/-- Embedding of `sfrog.analysis.duplicates.summarize_duplicates`:
keep only hashes mapping to more than one URL. -/
def summarizeDuplicates (m : List (Str × List Str)) : List (Str × List Str) :=
  m.filter (fun kv => 1 < kv.2.length)

/-- The dict comprehension in `CrawlManager.crawl`
(`{k: v for k, v in self.duplicate_map.items() if len(v) > 1}`). -/
def crawlDupFilter (m : List (Str × List Str)) : List (Str × List Str) :=
  m.filter (fun kv => 1 < kv.2.length)

/-- Embedding of `sfrog.crawler.manager.CrawlResult`. -/
structure CrawlOutcome where
  pages : List PageData
  edges : List (Str × Str)
  duplicateMap : List (Str × List Str)
  brokenLinks : List PageData
deriving DecidableEq, Repr

/-- Embedding of `CrawlManager.crawl`: seed, drain the frontier, and
assemble the result with the duplicate-map filter. -/
def crawl (env : Env) (cfg : Config) (fuel : Nat) : CrawlOutcome :=
  let st := crawlLoop env cfg fuel (seedState env cfg)
  { pages := st.pages, edges := st.edges,
    duplicateMap := crawlDupFilter st.duplicateMap,
    brokenLinks := st.brokenLinks }

/-! ### Frame lemmas for the crawl phases

Each phase of `_process_url` touches a fixed set of state fields; the
spec lemmas below record the shape of each update. -/

theorem recordEdge_spec (st : CrawlState) (url : Str) (source : Option Str) :
    ∃ e, recordEdge st url source = { st with edges := e } := by
  cases source with
  | none => exact ⟨st.edges, rfl⟩
  | some s =>
    by_cases h : s.isEmpty
    · exact ⟨st.edges, by simp [recordEdge, h]⟩
    · exact ⟨st.edges ++ [(s, url)], by simp [recordEdge, h]⟩

theorem applyDup_spec (st : CrawlState) (url : Str) (h? : Option Str) :
    ∃ d, applyDup st url h? = { st with duplicateMap := d } := by
  cases h? with
  | none => exact ⟨st.duplicateMap, rfl⟩
  | some h =>
    by_cases he : h.isEmpty
    · exact ⟨st.duplicateMap, by simp [applyDup, he]⟩
    · exact ⟨dmAppend st.duplicateMap h url, by simp [applyDup, he]⟩

theorem recordPage_spec (st : CrawlState) (page : PageData) :
    ∃ b, recordPage st page = { st with pages := st.pages ++ [page], brokenLinks := b } := by
  unfold recordPage
  cases hs : page.status with
  | none => exact ⟨st.brokenLinks, rfl⟩
  | some n =>
    by_cases hn : n ≠ 0 ∧ 400 ≤ n
    · exact ⟨st.brokenLinks ++ [page], by simp [hn]⟩
    · exact ⟨st.brokenLinks, by simp [hn]⟩

theorem harvestLinks_spec (base url : Str) (depth : Nat) :
    ∀ (links : List Str) (st : CrawlState),
    ∃ q en pl, harvestLinks base url depth links st
      = { st with queue := st.queue ++ q, enqueued := en, putLog := st.putLog ++ pl } := by
  intro links
  induction links with
  | nil =>
    intro st
    exact ⟨[], st.enqueued, [], by simp [harvestLinks]⟩
  | cons link rest ih =>
    intro st
    show ∃ q en pl, harvestLinks base url depth rest _ = _
    by_cases h1 : !isAllowedScheme link
    · simpa [harvestLinks, h1] using ih st
    · by_cases h2 : link ∉ st.visited ∧ link ∉ st.enqueued ∧ isSameDomain link base
      · obtain ⟨q, en, pl, hq⟩ := ih
          { st with queue := st.queue ++ [(link, depth + 1, some url)],
                    enqueued := link :: st.enqueued, putLog := st.putLog ++ [link] }
        refine ⟨(link, depth + 1, some url) :: q, en, link :: pl, ?_⟩
        show harvestLinks base url depth rest
          (if !isAllowedScheme link then st
           else if link ∉ st.visited ∧ link ∉ st.enqueued ∧ isSameDomain link base then
            { st with queue := st.queue ++ [(link, depth + 1, some url)],
                      enqueued := link :: st.enqueued, putLog := st.putLog ++ [link] }
           else st) = _
        rw [if_neg h1, if_pos h2, hq]
        simp
      · simpa [harvestLinks, h1, h2] using ih st

theorem fetchPhase_spec (env : Env) (base : Str) (st : CrawlState) (url : Str) (depth : Nat) :
    ∃ q en pl d pg b, fetchPhase env base st url depth
      = { st with queue := st.queue ++ q, enqueued := en, putLog := st.putLog ++ pl,
                  duplicateMap := d, pages := st.pages ++ pg, brokenLinks := b } := by
  unfold fetchPhase
  dsimp only
  generalize hashParse env base url (runFetch env url) = hp
  obtain ⟨d, hd⟩ := applyDup_spec st url hp.1
  rw [hd]
  obtain ⟨b, hb⟩ := recordPage_spec { st with duplicateMap := d }
    (buildPage (runFetch env url) hp.2 hp.1)
  rw [hb]
  dsimp only
  cases hp2 : hp.2 with
  | none =>
    refine ⟨[], st.enqueued, [], d, [buildPage (runFetch env url) none hp.1], b, ?_⟩
    simp
  | some parsed =>
    obtain ⟨q, en, pl, hq⟩ := harvestLinks_spec base url depth parsed.internalLinks
      { st with duplicateMap := d,
                pages := st.pages ++ [buildPage (runFetch env url) (some parsed) hp.1],
                brokenLinks := b }
    refine ⟨q, en, pl, d, [buildPage (runFetch env url) (some parsed) hp.1], b, ?_⟩
    exact hq

/-! ### Admission of frontier entries -/

/-- Shape of the frontier entries admitted while harvesting: every
entry of the output queue was already queued, or is a link that passed
the scheme filter, the same-host filter and the visited/enqueued
checks, enqueued at depth+1 with the processed URL as source. -/
theorem harvestLinks_queue_mem (base url : Str) (depth : Nat) :
    ∀ (links : List Str) (st : CrawlState),
    ∀ e ∈ (harvestLinks base url depth links st).queue,
    e ∈ st.queue ∨
      (isAllowedScheme e.1 = true ∧ isSameDomain e.1 base = true ∧
       e.1 ∉ st.visited ∧ e.1 ∉ st.enqueued ∧ e.2.1 = depth + 1 ∧ e.2.2 = some url) := by
  intro links
  induction links with
  | nil => intro st e he; exact Or.inl he
  | cons link rest ih =>
    intro st e he
    by_cases h1 : !isAllowedScheme link
    · simp only [harvestLinks, if_pos h1] at he
      exact ih st e he
    · by_cases h2 : link ∉ st.visited ∧ link ∉ st.enqueued ∧ isSameDomain link base
      · simp only [harvestLinks, if_neg h1, if_pos h2] at he
        rcases ih _ e he with hin | hnew
        · simp only [List.mem_append, List.mem_singleton] at hin
          rcases hin with hold | hadd
          · exact Or.inl hold
          · refine Or.inr ?_
            subst hadd
            refine ⟨?_, h2.2.2, h2.1, h2.2.1, rfl, rfl⟩
            simpa using h1
        · refine Or.inr ⟨hnew.1, hnew.2.1, hnew.2.2.1, ?_, hnew.2.2.2.2⟩
          have := hnew.2.2.2.1
          intro hmem
          exact this (List.mem_cons_of_mem _ hmem)
      · simp only [harvestLinks, if_neg h1, if_neg h2] at he
        exact ih st e he

/-- Lifting of `harvestLinks_queue_mem` through the fetch phase. -/
theorem fetchPhase_queue_mem (env : Env) (base : Str) (st : CrawlState) (url : Str)
    (depth : Nat) :
    ∀ e ∈ (fetchPhase env base st url depth).queue,
    e ∈ st.queue ∨
      (isAllowedScheme e.1 = true ∧ isSameDomain e.1 base = true ∧
       e.1 ∉ st.visited ∧ e.1 ∉ st.enqueued ∧ e.2.1 = depth + 1 ∧ e.2.2 = some url) := by
  intro e he
  unfold fetchPhase at he
  dsimp only at he
  generalize hgen : hashParse env base url (runFetch env url) = hp at he
  obtain ⟨d, hd⟩ := applyDup_spec st url hp.1
  rw [hd] at he
  obtain ⟨b, hb⟩ := recordPage_spec { st with duplicateMap := d }
    (buildPage (runFetch env url) hp.2 hp.1)
  rw [hb] at he
  cases hp2 : hp.2 with
  | none =>
    rw [hp2] at he
    exact Or.inl he
  | some parsed =>
    rw [hp2] at he
    have := harvestLinks_queue_mem base url depth parsed.internalLinks _ e he
    simpa using this

/-- Shape of the frontier entries admitted by `_process_url`: anything
new passed all three admission conditions relative to the state at the
start of the call and carries depth+1 and the processed URL as source. -/
theorem processUrl_queue_mem (env : Env) (cfg : Config) (base : Str) (st : CrawlState)
    (url : Str) (depth : Nat) (source : Option Str) :
    ∀ e ∈ (processUrl env cfg base st url depth source).queue,
    e ∈ st.queue ∨
      (isAllowedScheme e.1 = true ∧ isSameDomain e.1 base = true ∧
       e.1 ∉ st.visited ∧ e.1 ∉ st.enqueued ∧ e.2.1 = depth + 1 ∧ e.2.2 = some url) := by
  intro e he
  unfold processUrl at he
  by_cases hv : url ∈ st.visited
  · rw [if_pos hv] at he; exact Or.inl he
  · rw [if_neg hv] at he
    dsimp only at he
    by_cases hr : !env.robotsAllows url
    · rw [if_pos hr] at he; exact Or.inl he
    · rw [if_neg hr] at he
      by_cases hdep : cfg.maxDepth < depth
      · rw [if_pos hdep] at he; exact Or.inl he
      · rw [if_neg hdep] at he
        obtain ⟨ed, hed⟩ := recordEdge_spec
          { st with visited := url :: st.visited, procLog := st.procLog ++ [url] } url source
        rw [hed] at he
        have := fetchPhase_queue_mem env base _ url depth e he
        simp only at this
        rcases this with hin | hnew
        · exact Or.inl hin
        · refine Or.inr ⟨hnew.1, hnew.2.1, ?_, hnew.2.2.2⟩
          intro hmem
          exact hnew.2.2.1 (List.mem_cons_of_mem _ hmem)

/-! ### The crawl-state invariant -/

/-- Invariant maintained across the whole crawl: the put log (one entry
per `queue.put`) is duplicate-free and covered by `enqueued`; the
processing log (one entry per URL passing the visited-check) is
duplicate-free and covered by `visited`; and every URL in a
duplicate-map bucket has an emitted page carrying that hash. -/
structure StInv (st : CrawlState) : Prop where
  putLog_nodup : st.putLog.Nodup
  putLog_sub : ∀ u ∈ st.putLog, u ∈ st.enqueued
  procLog_nodup : st.procLog.Nodup
  procLog_sub : ∀ u ∈ st.procLog, u ∈ st.visited
  dup_pages : ∀ kv ∈ st.duplicateMap, ∀ u ∈ kv.2,
    ∃ p ∈ st.pages, p.url = u ∧ p.contentHash = some kv.1

/-- Unfolding of one `setdefault`/`append` update of the duplicate
map: a binding of the result is an old binding, an old bucket for `h`
extended with `u`, or the fresh bucket `[u]`. -/
theorem dmAppend_mem : ∀ (m : List (Str × List Str)) (h u : Str) (kv),
    kv ∈ dmAppend m h u →
    kv ∈ m ∨ (∃ vs, kv = (h, vs ++ [u]) ∧ (h, vs) ∈ m) ∨ kv = (h, [u]) := by
  intro m h u
  induction m with
  | nil =>
    intro kv hm
    simp only [dmAppend, List.mem_singleton] at hm
    exact Or.inr (Or.inr hm)
  | cons kv0 rest ih =>
    intro kv hm
    rcases kv0 with ⟨k, vs⟩
    by_cases hk : (k == h) = true
    · simp only [dmAppend, if_pos hk, List.mem_cons] at hm
      have hkh : k = h := by simpa using hk
      rcases hm with h1 | h2
      · subst hkh
        exact Or.inr (Or.inl ⟨vs, h1, List.mem_cons_self _ _⟩)
      · exact Or.inl (List.mem_cons_of_mem _ h2)
    · simp only [dmAppend, if_neg hk, List.mem_cons] at hm
      rcases hm with h1 | h2
      · exact Or.inl (by simp [h1])
      · rcases ih kv h2 with hold | ⟨vs2, hkv, hvs⟩ | hfresh
        · exact Or.inl (List.mem_cons_of_mem _ hold)
        · exact Or.inr (Or.inl ⟨vs2, hkv, List.mem_cons_of_mem _ hvs⟩)
        · exact Or.inr (Or.inr hfresh)

/-- Harvesting preserves the invariant: each admitted link was not yet
enqueued, so the put log stays duplicate-free. -/
theorem stInv_harvestLinks (base url : Str) (depth : Nat) :
    ∀ (links : List Str) (st : CrawlState), StInv st →
    StInv (harvestLinks base url depth links st) := by
  intro links
  induction links with
  | nil => intro st hI; exact hI
  | cons link rest ih =>
    intro st hI
    by_cases h1 : !isAllowedScheme link
    · simp only [harvestLinks, if_pos h1]
      exact ih st hI
    · by_cases h2 : link ∉ st.visited ∧ link ∉ st.enqueued ∧ isSameDomain link base
      · simp only [harvestLinks, if_neg h1, if_pos h2]
        refine ih _ ⟨?_, ?_, hI.procLog_nodup, hI.procLog_sub, hI.dup_pages⟩
        · have hnot : link ∉ st.putLog := fun hmem => h2.2.1 (hI.putLog_sub link hmem)
          simpa [List.nodup_append] using And.intro hI.putLog_nodup hnot
        · intro u hu
          simp only [List.mem_append, List.mem_singleton] at hu
          rcases hu with hold | hnew
          · exact List.mem_cons_of_mem _ (hI.putLog_sub u hold)
          · subst hnew; exact List.mem_cons_self _ _
      · simp only [harvestLinks, if_neg h1, if_neg h2]
        exact ih st hI

/-- The fetch-and-record phase preserves the invariant: the duplicate
map gains `url` only in the bucket of the hash that the page record
emitted in the same call carries. -/
theorem stInv_fetchPhase (env : Env) (base : Str) (st : CrawlState) (url : Str)
    (depth : Nat) (hI : StInv st) : StInv (fetchPhase env base st url depth) := by
  unfold fetchPhase
  dsimp only
  generalize hashParse env base url (runFetch env url) = hp
  have hpageurl : (buildPage (runFetch env url) hp.2 hp.1).url = url := rfl
  have hpagehash : (buildPage (runFetch env url) hp.2 hp.1).contentHash = hp.1 := rfl
  generalize hpg : buildPage (runFetch env url) hp.2 hp.1 = page
  rw [hpg] at hpageurl hpagehash
  -- state after the duplicate-map update and the page emission
  have hmid : ∀ st2 : CrawlState,
      st2.putLog = st.putLog → st2.enqueued = st.enqueued →
      st2.procLog = st.procLog → st2.visited = st.visited →
      st2.duplicateMap = (applyDup st url hp.1).duplicateMap →
      st2.pages = st.pages ++ [page] →
      StInv st2 := by
    intro st2 e1 e2 e3 e4 e5 e6
    refine ⟨e1 ▸ hI.putLog_nodup, ?_, e3 ▸ hI.procLog_nodup, ?_, ?_⟩
    · intro u hu; rw [e1] at hu; rw [e2]; exact hI.putLog_sub u hu
    · intro u hu; rw [e3] at hu; rw [e4]; exact hI.procLog_sub u hu
    · intro kv hkv u hu
      rw [e5] at hkv
      rw [e6]
      cases hcase : hp.1 with
      | none =>
        rw [hcase] at hkv
        simp only [applyDup] at hkv
        obtain ⟨p, hp1, hp2', hp3⟩ := hI.dup_pages kv hkv u hu
        exact ⟨p, List.mem_append_left _ hp1, hp2', hp3⟩
      | some h =>
        rw [hcase] at hkv
        by_cases hhe : h.isEmpty
        · simp only [applyDup, if_pos hhe] at hkv
          obtain ⟨p, hp1, hp2', hp3⟩ := hI.dup_pages kv hkv u hu
          exact ⟨p, List.mem_append_left _ hp1, hp2', hp3⟩
        · simp only [applyDup, if_neg hhe] at hkv
          rcases dmAppend_mem st.duplicateMap h url kv hkv with hold | ⟨vs, hkve, hvs⟩ | hfresh
          · obtain ⟨p, hp1, hp2', hp3⟩ := hI.dup_pages kv hold u hu
            exact ⟨p, List.mem_append_left _ hp1, hp2', hp3⟩
          · subst hkve
            simp only [List.mem_append, List.mem_singleton] at hu
            rcases hu with hu1 | hu2
            · obtain ⟨p, hp1, hp2', hp3⟩ := hI.dup_pages (h, vs) hvs u hu1
              exact ⟨p, List.mem_append_left _ hp1, hp2', hp3⟩
            · subst hu2
              exact ⟨page, List.mem_append_right _ (List.mem_singleton_self _),
                hpageurl, by rw [hpagehash, hcase]⟩
          · subst hfresh
            simp only [List.mem_singleton] at hu
            subst hu
            exact ⟨page, List.mem_append_right _ (List.mem_singleton_self _),
              hpageurl, by rw [hpagehash, hcase]⟩
  obtain ⟨d, hd⟩ := applyDup_spec st url hp.1
  rw [hd]
  obtain ⟨b, hb⟩ := recordPage_spec { st with duplicateMap := d } page
  rw [hb]
  dsimp only
  have hmid2 : StInv { st with duplicateMap := d, pages := st.pages ++ [page], brokenLinks := b } := by
    refine hmid _ rfl rfl rfl rfl ?_ rfl
    rw [hd]
  cases hp.2 with
  | none => exact hmid2
  | some parsed => exact stInv_harvestLinks base url depth parsed.internalLinks _ hmid2

/-- One `_process_url` call preserves the invariant. -/
theorem stInv_processUrl (env : Env) (cfg : Config) (base : Str) (st : CrawlState)
    (url : Str) (depth : Nat) (source : Option Str) (hI : StInv st) :
    StInv (processUrl env cfg base st url depth source) := by
  unfold processUrl
  by_cases hv : url ∈ st.visited
  · rw [if_pos hv]; exact hI
  · rw [if_neg hv]
    dsimp only
    have hmark : StInv { st with visited := url :: st.visited, procLog := st.procLog ++ [url] } := by
      refine ⟨hI.putLog_nodup, hI.putLog_sub, ?_, ?_, hI.dup_pages⟩
      · have hnot : url ∉ st.procLog := fun hmem => hv (hI.procLog_sub url hmem)
        simpa [List.nodup_append] using And.intro hI.procLog_nodup hnot
      · intro u hu
        simp only [List.mem_append, List.mem_singleton] at hu
        rcases hu with hold | hnew
        · exact List.mem_cons_of_mem _ (hI.procLog_sub u hold)
        · subst hnew; exact List.mem_cons_self _ _
    by_cases hr : !env.robotsAllows url
    · rw [if_pos hr]; exact hmark
    · rw [if_neg hr]
      by_cases hdep : cfg.maxDepth < depth
      · rw [if_pos hdep]; exact hmark
      · rw [if_neg hdep]
        obtain ⟨ed, hed⟩ := recordEdge_spec
          { st with visited := url :: st.visited, procLog := st.procLog ++ [url] } url source
        rw [hed]
        refine stInv_fetchPhase env base _ url depth ?_
        exact ⟨hmark.putLog_nodup, hmark.putLog_sub, hmark.procLog_nodup,
          hmark.procLog_sub, hmark.dup_pages⟩

/-- Sitemap seeding preserves the invariant. -/
theorem stInv_seedFold (base : Str) :
    ∀ (urls : List Str) (st : CrawlState), StInv st → StInv (seedFold base urls st) := by
  intro urls
  induction urls with
  | nil => intro st hI; exact hI
  | cons url rest ih =>
    intro st hI
    by_cases h : isSameDomain url base ∧ url ∉ st.enqueued
    · simp only [seedFold, if_pos h]
      refine ih _ ⟨?_, ?_, hI.procLog_nodup, hI.procLog_sub, hI.dup_pages⟩
      · have hnot : url ∉ st.putLog := fun hmem => h.2 (hI.putLog_sub url hmem)
        simpa [List.nodup_append] using And.intro hI.putLog_nodup hnot
      · intro u hu
        simp only [List.mem_append, List.mem_singleton] at hu
        rcases hu with hold | hnew
        · exact List.mem_cons_of_mem _ (hI.putLog_sub u hold)
        · subst hnew; exact List.mem_cons_self _ _
    · simp only [seedFold, if_neg h]
      exact ih st hI

/-- The seeded initial state satisfies the invariant. -/
theorem stInv_seedState (env : Env) (cfg : Config) : StInv (seedState env cfg) := by
  unfold seedState
  dsimp only
  have hinit : StInv
      { queue := [(canonicalize cfg.baseUrl, 0, none)], visited := [],
        enqueued := [canonicalize cfg.baseUrl], edges := [], pages := [],
        duplicateMap := [], brokenLinks := [],
        putLog := [canonicalize cfg.baseUrl], procLog := [] } := by
    refine ⟨List.nodup_singleton _, ?_, List.nodup_nil, ?_, ?_⟩
    · intro u hu; simpa using hu
    · intro u hu; simp at hu
    · intro kv hkv; simp at hkv
  cases (runFetch env (withPath (canonicalize cfg.baseUrl) (pyStr "/sitemap.xml"))).status with
  | none => exact hinit
  | some code =>
    dsimp only
    by_cases hc : code ≠ 0 ∧ code < 400
    · rw [if_pos hc]
      cases (runFetch env (withPath (canonicalize cfg.baseUrl) (pyStr "/sitemap.xml"))).content with
      | none => exact hinit
      | some c =>
        dsimp only
        by_cases hce : c.isEmpty
        · rw [if_pos hce]; exact hinit
        · rw [if_neg hce]
          exact stInv_seedFold _ _ _ hinit
    · rw [if_neg hc]; exact hinit

/-- The worker loop preserves the invariant for any fuel. -/
theorem stInv_crawlLoop (env : Env) (cfg : Config) :
    ∀ (fuel : Nat) (st : CrawlState), StInv st → StInv (crawlLoop env cfg fuel st) := by
  intro fuel
  induction fuel with
  | zero => intro st hI; exact hI
  | succ n ih =>
    intro st hI
    show StInv (match st.queue with
      | [] => st
      | (url, depth, source) :: rest =>
        crawlLoop env cfg n (processUrl env cfg (canonicalize cfg.baseUrl)
          { st with queue := rest } url depth source))
    cases hq : st.queue with
    | nil => exact hI
    | cons e rest =>
      rcases e with ⟨url, depth, source⟩
      refine ih _ (stInv_processUrl env cfg _ _ url depth source ?_)
      exact ⟨hI.putLog_nodup, hI.putLog_sub, hI.procLog_nodup, hI.procLog_sub, hI.dup_pages⟩

/-! ### Seeding lemmas -/

/-- Frame of the sitemap seeding loop. -/
theorem seedFold_spec (base : Str) :
    ∀ (urls : List Str) (st : CrawlState),
    ∃ q en pl, seedFold base urls st
      = { st with queue := st.queue ++ q, enqueued := en, putLog := st.putLog ++ pl } := by
  intro urls
  induction urls with
  | nil =>
    intro st
    exact ⟨[], st.enqueued, [], by simp [seedFold]⟩
  | cons url rest ih =>
    intro st
    by_cases h : isSameDomain url base ∧ url ∉ st.enqueued
    · obtain ⟨q, en, pl, hq⟩ := ih
        { st with queue := st.queue ++ [(url, 0, none)],
                  enqueued := url :: st.enqueued, putLog := st.putLog ++ [url] }
      refine ⟨(url, 0, none) :: q, en, url :: pl, ?_⟩
      show seedFold base rest
        (if isSameDomain url base ∧ url ∉ st.enqueued then
          { st with queue := st.queue ++ [(url, 0, none)],
                    enqueued := url :: st.enqueued, putLog := st.putLog ++ [url] }
         else st) = _
      rw [if_pos h, hq]
      simp
    · simpa [seedFold, h] using ih st

/-- Every entry seeded from the sitemap is same-host with the base. -/
theorem seedFold_queue_mem (base : Str) :
    ∀ (urls : List Str) (st : CrawlState),
    ∀ e ∈ (seedFold base urls st).queue,
    e ∈ st.queue ∨ (isSameDomain e.1 base = true ∧ e.2.1 = 0 ∧ e.2.2 = none) := by
  intro urls
  induction urls with
  | nil => intro st e he; exact Or.inl he
  | cons url rest ih =>
    intro st e he
    by_cases h : isSameDomain url base ∧ url ∉ st.enqueued
    · simp only [seedFold, if_pos h] at he
      rcases ih _ e he with hin | hnew
      · simp only [List.mem_append, List.mem_singleton] at hin
        rcases hin with hold | hadd
        · exact Or.inl hold
        · subst hadd; exact Or.inr ⟨h.1, rfl, rfl⟩
      · exact Or.inr hnew
    · simp only [seedFold, if_neg h] at he
      exact ih st e he

/-- The state produced by `_prepare_seed_urls`: the base entry plus
sitemap entries appended to the queue, with nothing visited yet. -/
theorem seedState_spec (env : Env) (cfg : Config) :
    ∃ q en pl, seedState env cfg
      = { queue := (canonicalize cfg.baseUrl, 0, none) :: q, visited := [],
          enqueued := en, edges := [], pages := [], duplicateMap := [],
          brokenLinks := [], putLog := canonicalize cfg.baseUrl :: pl, procLog := [] } := by
  unfold seedState
  dsimp only
  cases (runFetch env (withPath (canonicalize cfg.baseUrl) (pyStr "/sitemap.xml"))).status with
  | none => exact ⟨[], [canonicalize cfg.baseUrl], [], rfl⟩
  | some code =>
    dsimp only
    by_cases hc : code ≠ 0 ∧ code < 400
    · rw [if_pos hc]
      cases (runFetch env (withPath (canonicalize cfg.baseUrl) (pyStr "/sitemap.xml"))).content with
      | none => exact ⟨[], [canonicalize cfg.baseUrl], [], rfl⟩
      | some c =>
        dsimp only
        by_cases hce : c.isEmpty
        · rw [if_pos hce]; exact ⟨[], [canonicalize cfg.baseUrl], [], rfl⟩
        · rw [if_neg hce]
          obtain ⟨q, en, pl, hq⟩ := seedFold_spec (canonicalize cfg.baseUrl)
            (seedUrlsOfSitemap env.xmlParse env.norm (canonicalize cfg.baseUrl)
              (env.decode c))
            { queue := [(canonicalize cfg.baseUrl, 0, none)], visited := [],
              enqueued := [canonicalize cfg.baseUrl], edges := [], pages := [],
              duplicateMap := [], brokenLinks := [],
              putLog := [canonicalize cfg.baseUrl], procLog := [] }
          exact ⟨q, en, pl, by rw [hq]; rfl⟩
    · rw [if_neg hc]; exact ⟨[], [canonicalize cfg.baseUrl], [], rfl⟩

/-- Every entry on the seeded frontier is the base entry or a
same-host sitemap entry at depth 0 with no source. -/
theorem seedState_queue_mem (env : Env) (cfg : Config) :
    ∀ e ∈ (seedState env cfg).queue,
    e = (canonicalize cfg.baseUrl, 0, none)
    ∨ (isSameDomain e.1 (canonicalize cfg.baseUrl) = true ∧ e.2.1 = 0 ∧ e.2.2 = none) := by
  have hbase : ∀ e : Str × Nat × Option Str,
      e ∈ ([(canonicalize cfg.baseUrl, 0, none)] : List (Str × Nat × Option Str)) →
      e = (canonicalize cfg.baseUrl, 0, none)
      ∨ (isSameDomain e.1 (canonicalize cfg.baseUrl) = true ∧ e.2.1 = 0 ∧ e.2.2 = none) := by
    intro e he
    simp only [List.mem_singleton] at he
    exact Or.inl he
  unfold seedState
  dsimp only
  cases (runFetch env (withPath (canonicalize cfg.baseUrl) (pyStr "/sitemap.xml"))).status with
  | none => exact hbase
  | some code =>
    dsimp only
    by_cases hc : code ≠ 0 ∧ code < 400
    · rw [if_pos hc]
      cases (runFetch env (withPath (canonicalize cfg.baseUrl) (pyStr "/sitemap.xml"))).content with
      | none => exact hbase
      | some c =>
        dsimp only
        by_cases hce : c.isEmpty
        · rw [if_pos hce]; exact hbase
        · rw [if_neg hce]
          intro e he
          rcases seedFold_queue_mem (canonicalize cfg.baseUrl) _ _ e he with hin | hnew
          · exact hbase e hin
          · exact Or.inr hnew
    · rw [if_neg hc]; exact hbase

/-! ### Witness environments

Small concrete environments used to instantiate theorems and to refute
claims; `cfgA` crawls `http://e/` to depth 3. -/

/-- A parsed page with a single internal link to `http://e/p`. -/
def pageLinkP : ParsedPage :=
  { url := pyStr "http://e/", title := none, metaDescription := none,
    canonical := none, headings := [], internalLinks := [pyStr "http://e/p"],
    externalLinks := [], images := [] }

/-- Environment A: every fetch succeeds with body `[1]`; the base page
links to `http://e/p`, which robots denies. -/
def envA : Env :=
  { fetch := fun _ =>
      { status := some 200, headers := [], content := some [1],
        elapsed := 0, redirectedUrl := none, error := none }
    decode := fun _ => []
    md5 := fun _ => pyStr "h"
    parseHtml := fun u _ _ => if u == pyStr "http://e/" then some pageLinkP else none
    robotsAllows := fun u => !(u == pyStr "http://e/p")
    xmlParse := fun _ => Except.error (pyStr "E")
    norm := fun _ l => l }

def cfgA : Config := { baseUrl := pyStr "http://e/", maxDepth := 3 }

/-- Environment B: every page has the same body, and the sitemap seeds
`http://e/a`, so the crawl finds duplicate content. -/
def envB : Env :=
  { fetch := fun _ =>
      { status := some 200, headers := [], content := some [1],
        elapsed := 0, redirectedUrl := none, error := none }
    decode := fun _ => []
    md5 := fun _ => pyStr "h"
    parseHtml := fun _ _ _ => none
    robotsAllows := fun _ => true
    xmlParse := fun _ => Except.ok (Xml.node [(pyStr "urlset",
      Xml.node [(pyStr "url", Xml.node [(pyStr "loc", Xml.text (pyStr "http://e/a"))])])])
    norm := fun _ l => l }

/-- Environment C: the sitemap lists an `ftp://` URL on the same host. -/
def envC : Env :=
  { fetch := fun _ =>
      { status := some 200, headers := [], content := some [1],
        elapsed := 0, redirectedUrl := none, error := none }
    decode := fun _ => []
    md5 := fun _ => pyStr "h"
    parseHtml := fun _ _ _ => none
    robotsAllows := fun _ => true
    xmlParse := fun _ => Except.ok (Xml.node [(pyStr "urlset",
      Xml.node [(pyStr "url", Xml.node [(pyStr "loc", Xml.text (pyStr "ftp://e/x"))])])])
    norm := fun _ l => l }

/-! ### Claim C1 -/

/-- C1: over the whole lifetime of a single `crawl()` call — seeding
followed by any number of processed frontier entries — every URL is
put on the frontier at most once (the ghost put log stays
duplicate-free, guarded by `enqueued`) and passes the initial
visited-check of `_process_url` at most once (the ghost processing log
stays duplicate-free, guarded by `visited`). -/
theorem C1_frontier_and_processing_once (env : Env) (cfg : Config) (fuel : Nat) :
    (crawlLoop env cfg fuel (seedState env cfg)).putLog.Nodup ∧
    (crawlLoop env cfg fuel (seedState env cfg)).procLog.Nodup :=
  let hI := stInv_crawlLoop env cfg fuel _ (stInv_seedState env cfg)
  ⟨hI.putLog_nodup, hI.procLog_nodup⟩

/-! ### Claim C2 -/

/-- C2 counterexample: in environment A the entry
`(http://e/p, 1, http://e/)` reaches the frontier (so it is dequeued
with a non-empty source) and is processed, yet the final `edges` list
of the crawl is empty: robots denies `http://e/p`, and `_process_url`
returns before the edge append. -/
theorem C2_counterexample :
    (pyStr "http://e/p", 1, some (pyStr "http://e/"))
        ∈ (crawlLoop envA cfgA 1 (seedState envA cfgA)).queue
    ∧ pyStr "http://e/p" ∈ (crawlLoop envA cfgA 5 (seedState envA cfgA)).procLog
    ∧ (crawl envA cfgA 5).edges = [] := by decide

/-- C2 amended: the pair `(source, url)` is appended to `edges` for a
dequeued entry with a non-empty source provided the entry passes the
visited, robots and depth gates; from that point on the append happens
regardless of the fetch outcome (the environment is arbitrary). -/
theorem C2_edges_amended (env : Env) (cfg : Config) (base : Str) (st : CrawlState)
    (url : Str) (depth : Nat) (s : Str)
    (hv : url ∉ st.visited) (hr : env.robotsAllows url = true)
    (hd : depth ≤ cfg.maxDepth) (hs : s ≠ []) :
    (processUrl env cfg base st url depth (some s)).edges = st.edges ++ [(s, url)] := by
  unfold processUrl
  rw [if_neg hv]
  dsimp only
  rw [if_neg (by simp [hr])]
  rw [if_neg (not_lt.mpr hd)]
  have hse : s.isEmpty = false := by
    cases s with
    | nil => exact absurd rfl hs
    | cons a t => rfl
  have hrec : recordEdge
      { st with visited := url :: st.visited, procLog := st.procLog ++ [url] } url (some s)
      = { st with visited := url :: st.visited, procLog := st.procLog ++ [url],
                  edges := st.edges ++ [(s, url)] } := by
    simp [recordEdge, hse]
  rw [hrec]
  obtain ⟨q, en, pl, d, pg, b, hfp⟩ := fetchPhase_spec env base _ url depth
  rw [hfp]

theorem C2_edges_amended_witness :
    (processUrl envA cfgA (pyStr "http://e/") (seedState envA cfgA)
        (pyStr "http://e/") 0 (some (pyStr "http://s/"))).edges
      = (seedState envA cfgA).edges ++ [(pyStr "http://s/", pyStr "http://e/")] :=
  C2_edges_amended envA cfgA (pyStr "http://e/") (seedState envA cfgA)
    (pyStr "http://e/") 0 (pyStr "http://s/")
    (by decide) (by decide) (by decide) (by decide)

/-! ### Claim C4 -/

/-- C4: every frontier entry added while `_process_url` handles an
entry of depth `d` is enqueued at depth `d+1` with the processed URL
as source, and when `d` exceeds `max_depth` no `PageData` is emitted
(the pages list is unchanged). -/
theorem C4_depth_monotone (env : Env) (cfg : Config) (base : Str) (st : CrawlState)
    (url : Str) (depth : Nat) (source : Option Str) :
    (∀ e ∈ (processUrl env cfg base st url depth source).queue,
       e ∈ st.queue ∨ (e.2.1 = depth + 1 ∧ e.2.2 = some url)) ∧
    (cfg.maxDepth < depth → (processUrl env cfg base st url depth source).pages = st.pages) := by
  constructor
  · intro e he
    rcases processUrl_queue_mem env cfg base st url depth source e he with h | h
    · exact Or.inl h
    · exact Or.inr ⟨h.2.2.2.2.1, h.2.2.2.2.2⟩
  · intro hdep
    unfold processUrl
    by_cases hv : url ∈ st.visited
    · rw [if_pos hv]
    · rw [if_neg hv]
      dsimp only
      by_cases hr : !env.robotsAllows url
      · rw [if_pos hr]
      · rw [if_neg hr]
        rw [if_pos hdep]

theorem C4_depth_monotone_witness :
    ((pyStr "http://e/p", 1, some (pyStr "http://e/"))
        ∈ ({ seedState envA cfgA with queue := [] } : CrawlState).queue
      ∨ ((pyStr "http://e/p", 1, some (pyStr "http://e/")).2.1 = 0 + 1
         ∧ (pyStr "http://e/p", 1, some (pyStr "http://e/")).2.2 = some (pyStr "http://e/")))
    ∧ (processUrl envA cfgA (pyStr "http://e/") (seedState envA cfgA)
        (pyStr "http://e/") 9 none).pages = (seedState envA cfgA).pages :=
  ⟨(C4_depth_monotone envA cfgA (pyStr "http://e/")
      { seedState envA cfgA with queue := [] } (pyStr "http://e/") 0 none).1
      (pyStr "http://e/p", 1, some (pyStr "http://e/")) (by decide),
   (C4_depth_monotone envA cfgA (pyStr "http://e/") (seedState envA cfgA)
      (pyStr "http://e/") 9 none).2 (by decide)⟩

/-! ### Claim C5 -/

/-- C5: in the assembled `CrawlResult`, every binding `(h, us)` of the
duplicate map has at least two URLs, and each listed URL has an
emitted page whose `content_hash` is `h`. -/
theorem C5_duplicate_map (env : Env) (cfg : Config) (fuel : Nat) (h : Str) (us : List Str)
    (hm : (h, us) ∈ (crawl env cfg fuel).duplicateMap) :
    2 ≤ us.length ∧
    ∀ u ∈ us, ∃ p ∈ (crawl env cfg fuel).pages, p.url = u ∧ p.contentHash = some h := by
  have hI := stInv_crawlLoop env cfg fuel _ (stInv_seedState env cfg)
  unfold crawl at hm ⊢
  dsimp only at hm ⊢
  unfold crawlDupFilter at hm
  have hmem := List.mem_filter.mp hm
  constructor
  · have hlen := hmem.2
    simp only [decide_eq_true_eq] at hlen
    omega
  · intro u hu
    exact hI.dup_pages (h, us) hmem.1 u hu

theorem C5_duplicate_map_witness :
    2 ≤ ([pyStr "http://e/", pyStr "http://e/a"] : List Str).length ∧
    ∀ u ∈ ([pyStr "http://e/", pyStr "http://e/a"] : List Str),
      ∃ p ∈ (crawl envB cfgA 5).pages, p.url = u ∧ p.contentHash = some (pyStr "h") :=
  C5_duplicate_map envB cfgA 5 (pyStr "h") [pyStr "http://e/", pyStr "http://e/a"]
    (by decide)

/-! ### Claim C3 -/

/-- C3 counterexample: with a sitemap listing `ftp://e/x` (same host
as the base), seeding enqueues it although it fails the allowed-scheme
filter — the scheme filter is simply not part of the sitemap admission
conditions in `_prepare_seed_urls`. -/
theorem C3_counterexample :
    (pyStr "ftp://e/x", 0, none) ∈ (seedState envC cfgA).queue
    ∧ isAllowedScheme (pyStr "ftp://e/x") = false := by decide

/-- C3 amended: URLs enqueued during link harvesting satisfy all three
admission conditions (allowed scheme, same host, not already visited
or enqueued at the start of the call); URLs enqueued during sitemap
seeding satisfy the same-host condition (and trivially the visited
condition, since nothing is visited during seeding), but the
allowed-scheme filter is not applied to them. -/
theorem C3_admission_amended (env : Env) (cfg : Config) (base : Str) (st : CrawlState)
    (url : Str) (depth : Nat) (source : Option Str) :
    (∀ e ∈ (processUrl env cfg base st url depth source).queue,
       e ∈ st.queue ∨
         (isAllowedScheme e.1 = true ∧ isSameDomain e.1 base = true ∧
          e.1 ∉ st.visited ∧ e.1 ∉ st.enqueued)) ∧
    (∀ e ∈ (seedState env cfg).queue,
       e.1 = canonicalize cfg.baseUrl
       ∨ isSameDomain e.1 (canonicalize cfg.baseUrl) = true) ∧
    (seedState env cfg).visited = [] := by
  refine ⟨?_, ?_, ?_⟩
  · intro e he
    rcases processUrl_queue_mem env cfg base st url depth source e he with h | h
    · exact Or.inl h
    · exact Or.inr ⟨h.1, h.2.1, h.2.2.1, h.2.2.2.1⟩
  · intro e he
    rcases seedState_queue_mem env cfg e he with h1 | h2
    · exact Or.inl (by rw [h1])
    · exact Or.inr h2.1
  · obtain ⟨q, en, pl, hs⟩ := seedState_spec env cfg
    rw [hs]

theorem C3_admission_amended_witness :
    (pyStr "ftp://e/x" = canonicalize cfgA.baseUrl
     ∨ isSameDomain (pyStr "ftp://e/x") (canonicalize cfgA.baseUrl) = true) :=
  (C3_admission_amended envC cfgA [] (seedState envC cfgA) [] 0 none).2.1
    (pyStr "ftp://e/x", 0, none) (by decide)

/-! ### Claim C10 -/

/-- C10: the duplicate-map filtering inlined in `crawl()` is
extensionally equal to the standalone helper `summarize_duplicates`:
both keep exactly the bindings whose URL list has more than one
element. -/
theorem C10_dup_filter_refines (m : List (Str × List Str)) :
    crawlDupFilter m = summarizeDuplicates m := rfl

/-! ### Claim C7 -/

/-- An XML reader that fails on the malformed document consisting of a
single `<`, as `xmltodict.parse` does. -/
def xpFail : Str → Except Str Xml :=
  fun t => if t == pyStr "<" then Except.error (pyStr "ExpatError") else Except.ok Xml.null

/-- C7 counterexample: on malformed XML, `parse_sitemap` does not
return the empty list — the reader's exception propagates out of the
function (there is no handler in its body). -/
theorem C7_counterexample :
    parseSitemap xpFail (fun _ l => l) (pyStr "http://e/") (pyStr "<")
      = Except.error (pyStr "ExpatError")
    ∧ parseSitemap xpFail (fun _ l => l) (pyStr "http://e/") (pyStr "<")
      ≠ Except.ok [] :=
  ⟨rfl, fun h => Except.noConfusion h⟩

/-- C7 amended: `parse_sitemap` propagates XML reader failures to its
caller; the call site in `_prepare_seed_urls` catches every exception
and substitutes the empty list.  Single-entry `urlset` and
`sitemapindex` documents are handled identically to the corresponding
one-element multi-entry documents. -/
theorem C7_sitemap_amended (xp : Str → Except Str Xml) (norm : Str → Str → Str)
    (base text e : Str) (entry : List (Str × Xml)) :
    (xp text = Except.error e →
      parseSitemap xp norm base text = Except.error e
      ∧ seedUrlsOfSitemap xp norm base text = [])
    ∧ sitemapFromXml norm base
        (Xml.node [(pyStr "urlset", Xml.node [(pyStr "url", Xml.node entry)])])
      = sitemapFromXml norm base
        (Xml.node [(pyStr "urlset", Xml.node [(pyStr "url", Xml.arr [Xml.node entry])])])
    ∧ sitemapFromXml norm base
        (Xml.node [(pyStr "sitemapindex", Xml.node [(pyStr "sitemap", Xml.node entry)])])
      = sitemapFromXml norm base
        (Xml.node [(pyStr "sitemapindex", Xml.node [(pyStr "sitemap", Xml.arr [Xml.node entry])])]) := by
  refine ⟨?_, rfl, rfl⟩
  intro hxp
  have hps : parseSitemap xp norm base text = Except.error e := by
    unfold parseSitemap
    rw [hxp]
  exact ⟨hps, by unfold seedUrlsOfSitemap; rw [hps]⟩

theorem C7_sitemap_amended_witness :
    parseSitemap xpFail (fun _ l => l) (pyStr "http://b/") (pyStr "<")
      = Except.error (pyStr "ExpatError")
    ∧ seedUrlsOfSitemap xpFail (fun _ l => l) (pyStr "http://b/") (pyStr "<") = [] :=
  (C7_sitemap_amended xpFail (fun _ l => l) (pyStr "http://b/") (pyStr "<")
    (pyStr "ExpatError") []).1 rfl

/-! ### Claim C8 -/

/-- A parsed page used to observe whether the HTML parse gate fired. -/
def pageD : ParsedPage :=
  { url := [], title := none, metaDescription := none, canonical := none,
    headings := [], internalLinks := [], externalLinks := [], images := [] }

/-- Environment whose HTML parser always succeeds, so the parse gate
alone decides the outcome of `_maybe_parse_html`. -/
def envD : Env :=
  { fetch := fun _ =>
      { status := none, headers := [], content := none, elapsed := 0,
        redirectedUrl := none, error := none }
    decode := fun _ => []
    md5 := fun _ => []
    parseHtml := fun _ _ _ => some pageD
    robotsAllows := fun _ => true
    xmlParse := fun _ => Except.error []
    norm := fun _ l => l }

/-- C8 counterexample: the fetcher stores the response headers in a
plain dict, so lookup is case-sensitive — a `content-type:
application/pdf` header sent in lower case is not found by the
manager's `Content-Type` gate (the PDF is parsed as HTML), while the
exactly-cased header is found (no parse).  Case-insensitive lookup
would make both behave the same. -/
theorem C8_counterexample :
    maybeParseHtml envD [] []
      { url := [], status := some 200,
        headers := dictOfPairs [(pyStr "content-type", pyStr "application/pdf")],
        content := some [1], elapsed := 0, redirectedUrl := none, error := none }
      = some pageD
    ∧ maybeParseHtml envD [] []
      { url := [], status := some 200,
        headers := dictOfPairs [(pyStr "Content-Type", pyStr "application/pdf")],
        content := some [1], elapsed := 0, redirectedUrl := none, error := none }
      = none := by decide

/-- A key of the dict built by `dictOfPairs` is a key of the input
pair list. -/
theorem dictInsert_keys : ∀ (d : List (Str × Str)) (k v : Str) (kv : Str × Str),
    kv ∈ dictInsert d k v → kv.1 = k ∨ ∃ kv2 ∈ d, kv.1 = kv2.1 := by
  intro d k v
  induction d with
  | nil =>
    intro kv hm
    simp only [dictInsert, List.mem_singleton] at hm
    exact Or.inl (by rw [hm])
  | cons kv0 rest ih =>
    intro kv hm
    rcases kv0 with ⟨k2, v2⟩
    by_cases hk : (k2 == k) = true
    · simp only [dictInsert, if_pos hk] at hm
      rcases List.mem_cons.mp hm with h1 | h2
      · exact Or.inl (by rw [h1]; simpa using hk)
      · exact Or.inr ⟨kv, List.mem_cons_of_mem _ h2, rfl⟩
    · simp only [dictInsert, if_neg hk] at hm
      rcases List.mem_cons.mp hm with h1 | h2
      · exact Or.inr ⟨(k2, v2), List.mem_cons_self _ _, by rw [h1]⟩
      · rcases ih kv h2 with hl | ⟨kv2, hkv2, he⟩
        · exact Or.inl hl
        · exact Or.inr ⟨kv2, List.mem_cons_of_mem _ hkv2, he⟩

/-- Keys of the header dict come from the response's header names. -/
theorem dictOfPairs_keys (items : List (Str × Str)) :
    ∀ kv ∈ dictOfPairs items, ∃ kv2 ∈ items, kv.1 = kv2.1 := by
  have hgen : ∀ (its acc : List (Str × Str)) (kv : Str × Str),
      kv ∈ List.foldl (fun d kv => dictInsert d kv.1 kv.2) acc its →
      (∃ kv2 ∈ acc, kv.1 = kv2.1) ∨ ∃ kv2 ∈ its, kv.1 = kv2.1 := by
    intro its
    induction its with
    | nil => intro acc kv hm; exact Or.inl ⟨kv, hm, rfl⟩
    | cons it rest ih =>
      intro acc kv hm
      rcases ih (dictInsert acc it.1 it.2) kv hm with ⟨kv1, hkv1, he1⟩ | ⟨kv2, hkv2, he⟩
      · rcases dictInsert_keys acc it.1 it.2 kv1 hkv1 with h1 | ⟨kv2, hkv2, he2⟩
        · exact Or.inr ⟨it, List.mem_cons_self _ _, he1.trans h1⟩
        · exact Or.inl ⟨kv2, hkv2, he1.trans he2⟩
      · exact Or.inr ⟨kv2, List.mem_cons_of_mem _ hkv2, he⟩
  intro kv hm
  rcases hgen items [] kv hm with ⟨kv2, hkv2, _⟩ | hfound
  · exact absurd hkv2 (List.not_mem_nil kv2)
  · exact hfound

/-- C8 amended: lookup on the headers dict built by `Fetcher.fetch` is
case-sensitive — a name that does not occur among the response header
names exactly as written is not found, and the `Content-Type` gate
then falls back to its lenient default. -/
theorem C8_headers_amended (items : List (Str × Str)) (k dflt : Str)
    (hk : ∀ kv ∈ items, kv.1 ≠ k) :
    dictGet (dictOfPairs items) k dflt = dflt := by
  unfold dictGet
  have hnone : (dictOfPairs items).find? (fun kv => kv.1 == k) = none := by
    rw [List.find?_eq_none]
    intro kv hkv
    obtain ⟨kv2, hkv2, he⟩ := dictOfPairs_keys items kv hkv
    have : kv.1 ≠ k := he ▸ hk kv2 hkv2
    simpa using this
  rw [hnone]

theorem C8_headers_amended_witness :
    dictGet (dictOfPairs [(pyStr "content-type", pyStr "application/pdf")])
      (pyStr "Content-Type") [] = ([] : Str) :=
  C8_headers_amended [(pyStr "content-type", pyStr "application/pdf")]
    (pyStr "Content-Type") [] (by decide)

/-! ### Splitting lemmas for the URL parser -/

theorem breakAt_append_eq (p : Nat → Bool) : ∀ s : Str, (breakAt p s).1 ++ (breakAt p s).2 = s := by
  intro s
  induction s with
  | nil => rfl
  | cons c cs ih =>
    by_cases h : p c
    · simp [breakAt, h]
    · simp [breakAt, h, ih]

theorem breakAt_fst_not (p : Nat → Bool) : ∀ s : Str, ∀ c ∈ (breakAt p s).1, p c = false := by
  intro s
  induction s with
  | nil => intro c hc; simp [breakAt] at hc
  | cons a cs ih =>
    intro c hc
    by_cases h : p a
    · simp [breakAt, h] at hc
    · simp only [breakAt, if_neg h] at hc
      rcases List.mem_cons.mp hc with h1 | h2
      · subst h1; simpa using h
      · exact ih c h2

theorem breakAt_of_forall (p : Nat → Bool) : ∀ s : Str, (∀ c ∈ s, p c = false) →
    breakAt p s = (s, []) := by
  intro s
  induction s with
  | nil => intro _; rfl
  | cons a cs ih =>
    intro h
    have ha : p a = false := h a (List.mem_cons_self _ _)
    have hcs := ih (fun c hc => h c (List.mem_cons_of_mem _ hc))
    simp [breakAt, ha, hcs]

theorem breakAt_concat (p : Nat → Bool) : ∀ (a : Str), ∀ (c : Nat) (b : Str),
    (∀ x ∈ a, p x = false) → p c = true →
    breakAt p (a ++ c :: b) = (a, c :: b) := by
  intro a
  induction a with
  | nil =>
    intro c b _ hc
    simp [breakAt, hc]
  | cons x xs ih =>
    intro c b ha hc
    have hx : p x = false := ha x (List.mem_cons_self _ _)
    have := ih c b (fun y hy => ha y (List.mem_cons_of_mem _ hy)) hc
    simp [breakAt, hx, this]

/-- Lowercasing never turns a character into a URL delimiter. -/
theorem netlocDelim_pyLower (c : Nat) (h : netlocDelim c = false) :
    netlocDelim (pyLower c) = false := by
  unfold pyLower
  by_cases hc : 65 ≤ c ∧ c ≤ 90
  · rw [if_pos hc]
    simp only [netlocDelim]
    simp only [Bool.or_eq_false_iff, beq_eq_false_iff_ne]
    omega
  · rw [if_neg hc]; exact h

theorem lowerStr_netloc_clean (N : Str) (h : ∀ c ∈ N, netlocDelim c = false) :
    ∀ c ∈ lowerStr N, netlocDelim c = false := by
  intro c hc
  obtain ⟨c0, hc0, rfl⟩ := List.mem_map.mp hc
  exact netlocDelim_pyLower c0 (h c0 hc0)

theorem pyLower_idem (c : Nat) : pyLower (pyLower c) = pyLower c := by
  unfold pyLower
  by_cases hc : 65 ≤ c ∧ c ≤ 90
  · rw [if_pos hc, if_neg (by omega)]
  · rw [if_neg hc, if_neg hc]

theorem lowerStr_idem (s : Str) : lowerStr (lowerStr s) = lowerStr s := by
  unfold lowerStr
  rw [List.map_map]
  exact List.map_congr_left (fun c _ => pyLower_idem c)

/-- The scheme split recovers a literal `http` scheme. -/
theorem splitScheme_http (X : Str) :
    splitScheme (pyStr "http" ++ 58 :: X) = (pyStr "http", X) := rfl

/-- The scheme split recovers a literal `https` scheme. -/
theorem splitScheme_https (X : Str) :
    splitScheme (pyStr "https" ++ 58 :: X) = (pyStr "https", X) := rfl

theorem breakAt_snd (p : Nat → Bool) : ∀ s : Str,
    (breakAt p s).2 = [] ∨ ∃ c t, (breakAt p s).2 = c :: t ∧ p c = true := by
  intro s
  induction s with
  | nil => exact Or.inl rfl
  | cons a cs ih =>
    by_cases h : p a
    · exact Or.inr ⟨a, cs, by simp [breakAt, h], h⟩
    · simpa [breakAt, h] using ih

/-! ### Last-segment lemmas for the params split -/

/-- The final path segment: everything after the last `/`, or the whole
string when it has no `/`. -/
def lastSegOf (s : Str) : Str :=
  match splitLastSlash s with
  | some pr => pr.2
  | none => s

theorem splitLastSlash_eq_none : ∀ s : Str, (47 : Nat) ∉ s → splitLastSlash s = none := by
  intro s
  induction s with
  | nil => intro _; rfl
  | cons c rest ih =>
    intro h
    have hc : c ≠ 47 := fun he => h (he ▸ List.mem_cons_self _ _)
    have hrest := ih (fun hm => h (List.mem_cons_of_mem _ hm))
    simp [splitLastSlash, hrest, hc]

theorem splitLastSlash_none_not_mem : ∀ s : Str, splitLastSlash s = none → (47 : Nat) ∉ s := by
  intro s
  induction s with
  | nil => intro _ hm; simp at hm
  | cons c rest ih =>
    intro h hm
    unfold splitLastSlash at h
    cases hrest : splitLastSlash rest with
    | some pr => rw [hrest] at h; exact Option.noConfusion h
    | none =>
      rw [hrest] at h
      by_cases hc : (c == 47) = true
      · rw [if_pos hc] at h; exact Option.noConfusion h
      · rcases List.mem_cons.mp hm with h1 | h2
        · exact absurd (by rw [h1]) (by simpa using hc : ¬c = 47)
        · exact ih hrest h2

theorem splitLastSlash_some : ∀ (s pre seg : Str), splitLastSlash s = some (pre, seg) →
    s = pre ++ 47 :: seg ∧ (47 : Nat) ∉ seg := by
  intro s
  induction s with
  | nil => intro pre seg h; exact Option.noConfusion h
  | cons c rest ih =>
    intro pre seg h
    unfold splitLastSlash at h
    cases hrest : splitLastSlash rest with
    | some pr =>
      rw [hrest] at h
      rcases pr with ⟨p2, s2⟩
      have h12 : c :: p2 = pre ∧ s2 = seg := by simpa using h
      obtain ⟨he, hn⟩ := ih p2 s2 hrest
      rcases h12 with ⟨h1, h2⟩
      subst h1
      subst h2
      exact ⟨by rw [he]; rfl, hn⟩
    | none =>
      rw [hrest] at h
      by_cases hc : (c == 47) = true
      · rw [if_pos hc] at h
        have h12 : ([] : Str) = pre ∧ rest = seg := by simpa using h
        have hc47 : c = 47 := by simpa using hc
        subst hc47
        rw [← h12.1, ← h12.2]
        exact ⟨rfl, splitLastSlash_none_not_mem rest hrest⟩
      · rw [if_neg hc] at h
        exact Option.noConfusion h

theorem splitLastSlash_append : ∀ (pre seg : Str), (47 : Nat) ∉ seg →
    splitLastSlash (pre ++ 47 :: seg) = some (pre, seg) := by
  intro pre
  induction pre with
  | nil =>
    intro seg h
    show splitLastSlash (47 :: seg) = some ([], seg)
    unfold splitLastSlash
    rw [splitLastSlash_eq_none seg h]
    rfl
  | cons c rest ih =>
    intro seg h
    show splitLastSlash (c :: (rest ++ 47 :: seg)) = some (c :: rest, seg)
    unfold splitLastSlash
    rw [ih seg h]

/-- The second component of a found break starts with a matching
character. -/
theorem breakAt_snd_head (p : Nat → Bool) (s : Str) (b0 : Nat) (bt a : Str)
    (hbr : breakAt p s = (a, b0 :: bt)) : p b0 = true := by
  have hsnd := breakAt_snd p s
  rw [hbr] at hsnd
  rcases hsnd with h1 | ⟨c2, t2, he, hp⟩
  · exact absurd h1 (by simp)
  · have hc2 : b0 = c2 := by
      have := congrArg (fun l => l.headD 0) he
      simpa using this
    rw [hc2]
    exact hp

/-- When the final path segment has no `;`, the params split is the
identity. -/
theorem splitparams_of_lastSeg (s : Str) (h : (59 : Nat) ∉ lastSegOf s) :
    splitparams s = (s, []) := by
  unfold lastSegOf at h
  cases hsl : splitLastSlash s with
  | some pr =>
    rcases pr with ⟨pre, seg⟩
    rw [hsl] at h
    have hbr : breakAt (· == 59) seg = (seg, []) := by
      refine breakAt_of_forall _ seg (fun c hc => ?_)
      have hne : c ≠ 59 := fun he => h (he ▸ hc)
      simpa using hne
    simp only [splitparams, hsl, hbr]
  | none =>
    rw [hsl] at h
    have hbr : breakAt (· == 59) s = (s, []) := by
      refine breakAt_of_forall _ s (fun c hc => ?_)
      have hne : c ≠ 59 := fun he => h (he ▸ hc)
      simpa using hne
    simp only [splitparams, hsl, hbr]

/-- Every character of the params-split path is a character of the
input path. -/
theorem splitparams_fst_sub (s : Str) : ∀ c ∈ (splitparams s).1, c ∈ s := by
  cases hsl : splitLastSlash s with
  | some pr =>
    rcases pr with ⟨pre, seg⟩
    obtain ⟨hse, _⟩ := splitLastSlash_some s pre seg hsl
    cases hbr : breakAt (· == 59) seg with
    | mk a b =>
      have hab : a ++ b = seg := by
        have hape := breakAt_append_eq (· == 59) seg
        rw [hbr] at hape
        exact hape
      cases b with
      | nil =>
        intro c hc
        simp only [splitparams, hsl, hbr] at hc
        exact hc
      | cons b0 bt =>
        have hb0 : b0 = 59 := by
          have := breakAt_snd_head (· == 59) seg b0 bt a hbr
          simpa using this
        subst hb0
        intro c hc
        simp only [splitparams, hsl, hbr] at hc
        rw [hse, ← hab]
        simp only [List.mem_append, List.mem_cons] at hc ⊢
        tauto
  | none =>
    cases hbr : breakAt (· == 59) s with
    | mk a b =>
      have hab : a ++ b = s := by
        have hape := breakAt_append_eq (· == 59) s
        rw [hbr] at hape
        exact hape
      cases b with
      | nil =>
        intro c hc
        simp only [splitparams, hsl, hbr] at hc
        exact hc
      | cons b0 bt =>
        have hb0 : b0 = 59 := by
          have := breakAt_snd_head (· == 59) s b0 bt a hbr
          simpa using this
        subst hb0
        intro c hc
        simp only [splitparams, hsl, hbr] at hc
        rw [← hab]
        exact List.mem_append_left _ hc

/-! ### Component invariants of the URL parser -/

theorem splitFrag_fst_no35 (v : Str) : (35 : Nat) ∉ (splitFrag v).1 := by
  cases hbr : breakAt (· == 35) v with
  | mk a b =>
    have hnot := breakAt_fst_not (· == 35) v
    rw [hbr] at hnot
    cases b with
    | nil =>
      intro hm
      have hab : a ++ ([] : Str) = v := by
        have hape := breakAt_append_eq (· == 35) v
        rw [hbr] at hape
        exact hape
      have hav : a = v := by simpa using hab
      simp only [splitFrag, hbr] at hm
      rw [← hav] at hm
      have := hnot 35 hm
      simp at this
    | cons b0 bt =>
      have hb0 : b0 = 35 := by
        have := breakAt_snd_head (· == 35) v b0 bt a hbr
        simpa using this
      subst hb0
      intro hm
      simp only [splitFrag, hbr] at hm
      have := hnot 35 hm
      simp at this

theorem splitFrag_fst_sub (v : Str) : ∀ c ∈ (splitFrag v).1, c ∈ v := by
  cases hbr : breakAt (· == 35) v with
  | mk a b =>
    have hab : a ++ b = v := by
      have hape := breakAt_append_eq (· == 35) v
      rw [hbr] at hape
      exact hape
    cases b with
    | nil =>
      intro c hc
      simp only [splitFrag, hbr] at hc
      exact hc
    | cons b0 bt =>
      have hb0 : b0 = 35 := by
        have := breakAt_snd_head (· == 35) v b0 bt a hbr
        simpa using this
      subst hb0
      intro c hc
      simp only [splitFrag, hbr] at hc
      rw [← hab]
      exact List.mem_append_left _ hc

theorem splitQuery_fst_no63 (w : Str) : (63 : Nat) ∉ (splitQuery w).1 := by
  cases hbr : breakAt (· == 63) w with
  | mk a b =>
    have hnot := breakAt_fst_not (· == 63) w
    rw [hbr] at hnot
    cases b with
    | nil =>
      intro hm
      have hab : a ++ ([] : Str) = w := by
        have hape := breakAt_append_eq (· == 63) w
        rw [hbr] at hape
        exact hape
      have hav : a = w := by simpa using hab
      simp only [splitQuery, hbr] at hm
      rw [← hav] at hm
      have := hnot 63 hm
      simp at this
    | cons b0 bt =>
      have hb0 : b0 = 63 := by
        have := breakAt_snd_head (· == 63) w b0 bt a hbr
        simpa using this
      subst hb0
      intro hm
      simp only [splitQuery, hbr] at hm
      have := hnot 63 hm
      simp at this

theorem splitQuery_fst_sub (w : Str) : ∀ c ∈ (splitQuery w).1, c ∈ w := by
  cases hbr : breakAt (· == 63) w with
  | mk a b =>
    have hab : a ++ b = w := by
      have hape := breakAt_append_eq (· == 63) w
      rw [hbr] at hape
      exact hape
    cases b with
    | nil =>
      intro c hc
      simp only [splitQuery, hbr] at hc
      exact hc
    | cons b0 bt =>
      have hb0 : b0 = 63 := by
        have := breakAt_snd_head (· == 63) w b0 bt a hbr
        simpa using this
      subst hb0
      intro c hc
      simp only [splitQuery, hbr] at hc
      rw [← hab]
      exact List.mem_append_left _ hc

theorem splitQuery_snd_sub (w : Str) : ∀ c ∈ (splitQuery w).2, c ∈ w := by
  cases hbr : breakAt (· == 63) w with
  | mk a b =>
    have hab : a ++ b = w := by
      have hape := breakAt_append_eq (· == 63) w
      rw [hbr] at hape
      exact hape
    cases b with
    | nil =>
      intro c hc
      simp only [splitQuery, hbr] at hc
      simp at hc
    | cons b0 bt =>
      have hb0 : b0 = 63 := by
        have := breakAt_snd_head (· == 63) w b0 bt a hbr
        simpa using this
      subst hb0
      intro c hc
      simp only [splitQuery, hbr] at hc
      rw [← hab]
      exact List.mem_append_right _ (List.mem_cons_of_mem _ hc)

theorem splitNetlocPart_fst_clean (v : Str) :
    ∀ c ∈ (splitNetlocPart v).1, netlocDelim c = false := by
  unfold splitNetlocPart
  by_cases h : v.take 2 = [47, 47]
  · rw [if_pos h]
    exact breakAt_fst_not netlocDelim (v.drop 2)
  · rw [if_neg h]
    intro c hc
    simp at hc

theorem urlsplit_netloc_clean (u : Str) :
    ∀ c ∈ (urlsplit u).netloc, netlocDelim c = false := by
  unfold urlsplit
  dsimp only
  exact splitNetlocPart_fst_clean _

theorem urlsplit_path_no35 (u : Str) : (35 : Nat) ∉ (urlsplit u).path := by
  unfold urlsplit
  dsimp only
  intro hm
  exact splitFrag_fst_no35 _ (splitQuery_fst_sub _ 35 hm)

theorem urlsplit_path_no63 (u : Str) : (63 : Nat) ∉ (urlsplit u).path := by
  unfold urlsplit
  dsimp only
  exact splitQuery_fst_no63 _

theorem urlsplit_query_no35 (u : Str) : (35 : Nat) ∉ (urlsplit u).query := by
  unfold urlsplit
  dsimp only
  intro hm
  exact splitFrag_fst_no35 _ (splitQuery_snd_sub _ 35 hm)

theorem urlparse_scheme_eq (u : Str) : (urlparse u).scheme = (urlsplit u).scheme := rfl

theorem urlparse_netloc_eq (u : Str) : (urlparse u).netloc = (urlsplit u).netloc := rfl

theorem urlparse_query_eq (u : Str) : (urlparse u).query = (urlsplit u).query := rfl

theorem urlparse_path_sub (u : Str) : ∀ c ∈ (urlparse u).path, c ∈ (urlsplit u).path := by
  intro c hc
  unfold urlparse at hc
  dsimp only at hc
  by_cases hg : usesParams.contains (urlsplit u).scheme && (urlsplit u).path.contains 59
  · rw [if_pos hg] at hc
    exact splitparams_fst_sub _ c hc
  · rw [if_neg hg] at hc
    exact hc

theorem urlparse_path_no35 (u : Str) : (35 : Nat) ∉ (urlparse u).path :=
  fun hm => urlsplit_path_no35 u (urlparse_path_sub u 35 hm)

theorem urlparse_path_no63 (u : Str) : (63 : Nat) ∉ (urlparse u).path :=
  fun hm => urlsplit_path_no63 u (urlparse_path_sub u 63 hm)

/-! ### Reparsing a canonicalized URL

`canonicalize` rebuilds the URL with `urlunparse`; the lemmas below
compute the rebuilt string and its reparse for a netloc-using scheme. -/

/-- The path as emitted by `urlunsplit`: a leading `/` is added when
the path does not already start with one. -/
def slashPath (PA : Str) : Str := if PA.headD 0 = 47 then PA else 47 :: PA

/-- Explicit form of the string built by `urlunsplit` for a nonempty
netloc-using scheme, an empty fragment, and a path that does not start
with `//` while the netloc is empty. -/
theorem urlunsplit_explicit (S N PA Q : Str)
    (hSe : S.isEmpty = false) (hUN : usesNetloc.contains S = true)
    (hPAne : PA ≠ [])
    (hB : N = [] → PA.take 2 ≠ [47, 47]) :
    urlunsplit S N PA Q [] =
      (S ++ 58 :: 47 :: 47 :: (N ++ slashPath PA))
        ++ (if Q.isEmpty then [] else 63 :: Q) := by
  have hcond : (!N.isEmpty || (!S.isEmpty && usesNetloc.contains S && !(PA.take 2 == [47, 47]))) = true := by
    by_cases hn : N = []
    · have h1 : (PA.take 2 == [47, 47]) = false := by
        have ht2 : PA.take 2 ≠ [47, 47] := hB hn
        simpa using ht2
      subst hn
      rw [hSe, hUN, h1]
      rfl
    · have hne : N.isEmpty = false := by
        cases N with
        | nil => exact absurd rfl hn
        | cons a t => rfl
      rw [hne]
      rfl
  have hbody : (if !PA.isEmpty && !(PA.headD 0 == 47) then 47 :: PA else PA) = slashPath PA := by
    unfold slashPath
    by_cases hh : PA.headD 0 = 47
    · have hhb : (PA.headD 0 == 47) = true := by simpa using hh
      rw [if_pos hh, hhb]
      simp
    · have hhb : (PA.headD 0 == 47) = false := by simpa using hh
      have hpe : PA.isEmpty = false := by
        cases PA with
        | nil => exact absurd rfl hPAne
        | cons a t => rfl
      rw [if_neg hh, hhb, hpe]
      simp
  unfold urlunsplit
  dsimp only
  rw [hcond, hbody]
  by_cases hq : Q.isEmpty
  · have hqe : Q = [] := by
      cases Q with
      | nil => rfl
      | cons a t => exact absurd hq (by simp)
    subst hqe
    rw [hSe]
    simp
  · have hqe : Q.isEmpty = false := by
      cases hb : Q.isEmpty with
      | false => rfl
      | true => exact absurd hb hq
    rw [hSe, hqe]
    simp

/-- Reparsing the rebuilt URL recovers the components, with the
slash-defaulted path. -/
theorem urlsplit_rebuild (S N PA Q : Str)
    (hsch : ∀ X, splitScheme (S ++ 58 :: X) = (S, X))
    (hSe : S.isEmpty = false) (hUN : usesNetloc.contains S = true)
    (hN : ∀ c ∈ N, netlocDelim c = false)
    (hPAne : PA ≠ [])
    (hB : N = [] → PA.take 2 ≠ [47, 47])
    (h35 : (35 : Nat) ∉ PA) (h63 : (63 : Nat) ∉ PA) (hQ35 : (35 : Nat) ∉ Q) :
    urlsplit (urlunsplit S N PA Q []) = ⟨S, N, slashPath PA, Q, []⟩ := by
  have hsnp : ∀ R : Str, splitNetlocPart (47 :: 47 :: R) = breakAt netlocDelim R := by
    intro R
    unfold splitNetlocPart
    rw [if_pos (show List.take 2 (47 :: 47 :: R) = [47, 47] from rfl)]
    rfl
  obtain ⟨PBt, hPB⟩ : ∃ t, slashPath PA = 47 :: t := by
    unfold slashPath
    by_cases hh : PA.headD 0 = 47
    · rw [if_pos hh]
      cases PA with
      | nil => exact absurd rfl hPAne
      | cons a t =>
        have ha : a = 47 := by simpa using hh
        exact ⟨t, by rw [ha]⟩
    · exact ⟨PA, by rw [if_neg hh]⟩
  have h35' : (35 : Nat) ∉ slashPath PA := by
    unfold slashPath
    by_cases hh : PA.headD 0 = 47
    · rw [if_pos hh]; exact h35
    · rw [if_neg hh]
      intro hm
      rcases List.mem_cons.mp hm with h1 | h2
      · simp at h1
      · exact h35 h2
  have h63' : (63 : Nat) ∉ slashPath PA := by
    unfold slashPath
    by_cases hh : PA.headD 0 = 47
    · rw [if_pos hh]; exact h63
    · rw [if_neg hh]
      intro hm
      rcases List.mem_cons.mp hm with h1 | h2
      · simp at h1
      · exact h63 h2
  rw [urlunsplit_explicit S N PA Q hSe hUN hPAne hB]
  by_cases hq : Q.isEmpty
  · have hqe : Q = [] := by
      cases Q with
      | nil => rfl
      | cons a t => exact absurd hq (by simp)
    subst hqe
    rw [show ((if ([] : Str).isEmpty then ([] : Str) else 63 :: []) = []) from rfl, List.append_nil]
    unfold urlsplit
    dsimp only
    rw [hsch]
    dsimp only
    have hnl : splitNetlocPart (47 :: 47 :: (N ++ slashPath PA)) = (N, slashPath PA) := by
      rw [hsnp, hPB]
      exact breakAt_concat netlocDelim N 47 PBt hN (by decide)
    rw [hnl]
    dsimp only
    have hfr : splitFrag (slashPath PA) = (slashPath PA, []) := by
      have hall : ∀ c ∈ slashPath PA, (c == 35) = false := by
        intro c hc
        have hne : c ≠ 35 := fun he => h35' (he ▸ hc)
        simpa using hne
      have hbr := breakAt_of_forall (· == 35) (slashPath PA) hall
      simp [splitFrag, hbr]
    rw [hfr]
    dsimp only
    have hqr : splitQuery (slashPath PA) = (slashPath PA, []) := by
      have hall : ∀ c ∈ slashPath PA, (c == 63) = false := by
        intro c hc
        have hne : c ≠ 63 := fun he => h63' (he ▸ hc)
        simpa using hne
      have hbr := breakAt_of_forall (· == 63) (slashPath PA) hall
      simp [splitQuery, hbr]
    rw [hqr]
  · have hqe : Q.isEmpty = false := by
      cases hb : Q.isEmpty with
      | false => rfl
      | true => exact absurd hb hq
    rw [if_neg (by simp [hqe])]
    have hassoc : (S ++ 58 :: 47 :: 47 :: (N ++ slashPath PA)) ++ 63 :: Q
        = S ++ 58 :: 47 :: 47 :: (N ++ (slashPath PA ++ 63 :: Q)) := by
      simp [List.append_assoc]
    rw [hassoc]
    unfold urlsplit
    dsimp only
    rw [hsch]
    dsimp only
    have hnl : splitNetlocPart (47 :: 47 :: (N ++ (slashPath PA ++ 63 :: Q)))
        = (N, slashPath PA ++ 63 :: Q) := by
      rw [hsnp, hPB]
      show breakAt netlocDelim (N ++ (47 :: (PBt ++ 63 :: Q))) = (N, 47 :: (PBt ++ 63 :: Q))
      exact breakAt_concat netlocDelim N 47 (PBt ++ 63 :: Q) hN (by decide)
    rw [hnl]
    dsimp only
    have hfr : splitFrag (slashPath PA ++ 63 :: Q) = (slashPath PA ++ 63 :: Q, []) := by
      have hall : ∀ c ∈ slashPath PA ++ 63 :: Q, (c == 35) = false := by
        intro c hc
        rcases List.mem_append.mp hc with h1 | h2
        · have hne : c ≠ 35 := fun he => h35' (he ▸ h1)
          simpa using hne
        · rcases List.mem_cons.mp h2 with h3 | h4
          · subst h3; decide
          · have hne : c ≠ 35 := fun he => hQ35 (he ▸ h4)
            simpa using hne
      have hbr := breakAt_of_forall (· == 35) _ hall
      simp [splitFrag, hbr]
    rw [hfr]
    dsimp only
    have hqr : splitQuery (slashPath PA ++ 63 :: Q) = (slashPath PA, Q) := by
      have hall : ∀ x ∈ slashPath PA, (x == 63) = false := by
        intro x hx
        have hne : x ≠ 63 := fun he => h63' (he ▸ hx)
        simpa using hne
      have hbr := breakAt_concat (· == 63) (slashPath PA) 63 Q hall (by decide)
      simp [splitQuery, hbr]
    rw [hqr]

/-- Full reparse of the rebuilt URL, including the params split: when
the final segment of the emitted path has no `;`, the params component
is empty and the path survives. -/
theorem urlparse_rebuild (S N PA Q : Str)
    (hsch : ∀ X, splitScheme (S ++ 58 :: X) = (S, X))
    (hSe : S.isEmpty = false) (hUN : usesNetloc.contains S = true)
    (hN : ∀ c ∈ N, netlocDelim c = false)
    (hPAne : PA ≠ [])
    (hB : N = [] → PA.take 2 ≠ [47, 47])
    (h35 : (35 : Nat) ∉ PA) (h63 : (63 : Nat) ∉ PA) (hQ35 : (35 : Nat) ∉ Q)
    (hsemi : (59 : Nat) ∉ lastSegOf (slashPath PA)) :
    urlparse (urlunsplit S N PA Q []) = ⟨S, N, slashPath PA, [], Q, []⟩ := by
  unfold urlparse
  rw [urlsplit_rebuild S N PA Q hsch hSe hUN hN hPAne hB h35 h63 hQ35]
  dsimp only
  by_cases hg : usesParams.contains S && (slashPath PA).contains 59
  · rw [if_pos hg, splitparams_of_lastSeg (slashPath PA) hsemi]
  · rw [if_neg hg]

/-- Prepending the `/` that `urlunsplit` adds does not change the
final path segment. -/
theorem lastSegOf_slashPath (PA : Str) : lastSegOf (slashPath PA) = lastSegOf PA := by
  unfold slashPath
  by_cases hh : PA.headD 0 = 47
  · rw [if_pos hh]
  · rw [if_neg hh]
    unfold lastSegOf
    cases hsl : splitLastSlash PA with
    | some pr =>
      rcases pr with ⟨pre, seg⟩
      simp only [splitLastSlash, hsl]
    | none =>
      simp only [splitLastSlash, hsl]
      rfl

/-! ### Claim C6 -/

/-- C6 counterexample: for the input `mailto:foo@bar` the parsed path
is `foo@bar`, but the canonical URL `http:///foo@bar` parses with path
`/foo@bar` — `urlunparse` (Python 3.11) prepends `/` to a relative
path when emitting a netloc-using scheme, so the path component is not
preserved as the claim states. -/
theorem C6_counterexample :
    (urlparse (pyStr "mailto:foo@bar")).path = pyStr "foo@bar"
    ∧ (urlparse (canonicalize (pyStr "mailto:foo@bar"))).path = pyStr "/foo@bar"
    ∧ pyStr "/foo@bar" ≠ pyStr "foo@bar" := by decide

/-- C6 amended: for every URL whose parsed path is empty or starts
with `/`, does not start with `//` while the netloc is empty, and has
no `;` in its final segment, `canonicalize` returns a URL whose scheme
is the lowercased input scheme when that is http or https and `http`
otherwise, whose netloc is the lowercased input netloc, whose path is
`/` when the input path is empty and the input path otherwise, whose
query equals the input query, and which has no fragment and no params
component.  (For other inputs `urlunparse`/`urlparse` relocate
components, as the counterexample shows.) -/
theorem C6_canonicalize_amended (u : Str)
    (H1 : (urlparse u).path = [] ∨ (urlparse u).path.headD 0 = 47)
    (H2 : (urlparse u).netloc = [] →
      (if (urlparse u).path.isEmpty then [47] else (urlparse u).path).take 2 ≠ [47, 47])
    (H3 : (59 : Nat) ∉ lastSegOf (if (urlparse u).path.isEmpty then [47] else (urlparse u).path)) :
    (urlparse (canonicalize u)).scheme
        = (if lowerStr (urlparse u).scheme = pyStr "http" ∨ lowerStr (urlparse u).scheme = pyStr "https"
           then lowerStr (urlparse u).scheme else pyStr "http")
    ∧ (urlparse (canonicalize u)).netloc = lowerStr (urlparse u).netloc
    ∧ (urlparse (canonicalize u)).path
        = (if (urlparse u).path = [] then pyStr "/" else (urlparse u).path)
    ∧ (urlparse (canonicalize u)).query = (urlparse u).query
    ∧ (urlparse (canonicalize u)).fragment = []
    ∧ (urlparse (canonicalize u)).params = [] := by
  have hPAne : (if (urlparse u).path.isEmpty then [47] else (urlparse u).path) ≠ [] := by
    by_cases h : (urlparse u).path.isEmpty
    · rw [if_pos h]; intro he; exact List.noConfusion he
    · rw [if_neg h]
      intro he
      exact h (by rw [he]; rfl)
  have hhead : (if (urlparse u).path.isEmpty then [47] else (urlparse u).path).headD 0 = 47 := by
    rcases H1 with h | h
    · rw [if_pos (show (urlparse u).path.isEmpty = true from by rw [h]; rfl)]
      rfl
    · by_cases he : (urlparse u).path.isEmpty
      · rw [if_pos he]; rfl
      · rw [if_neg he]; exact h
  have hslash : slashPath (if (urlparse u).path.isEmpty then [47] else (urlparse u).path)
      = (if (urlparse u).path.isEmpty then [47] else (urlparse u).path) := by
    unfold slashPath
    rw [if_pos hhead]
  have h35 : (35 : Nat) ∉ (if (urlparse u).path.isEmpty then [47] else (urlparse u).path) := by
    by_cases h : (urlparse u).path.isEmpty
    · rw [if_pos h]; decide
    · rw [if_neg h]; exact urlparse_path_no35 u
  have h63 : (63 : Nat) ∉ (if (urlparse u).path.isEmpty then [47] else (urlparse u).path) := by
    by_cases h : (urlparse u).path.isEmpty
    · rw [if_pos h]; decide
    · rw [if_neg h]; exact urlparse_path_no63 u
  have hNc : ∀ c ∈ (urlparse u).netloc, netlocDelim c = false := by
    rw [urlparse_netloc_eq]
    exact urlsplit_netloc_clean u
  have hN := lowerStr_netloc_clean _ hNc
  have hB' : lowerStr (urlparse u).netloc = [] →
      (if (urlparse u).path.isEmpty then [47] else (urlparse u).path).take 2 ≠ [47, 47] :=
    fun hnl => H2 (List.map_eq_nil_iff.mp hnl)
  have hQ35 : (35 : Nat) ∉ (urlparse u).query := by
    rw [urlparse_query_eq]
    exact urlsplit_query_no35 u
  have hsemi : (59 : Nat) ∉
      lastSegOf (slashPath (if (urlparse u).path.isEmpty then [47] else (urlparse u).path)) := by
    rw [hslash]; exact H3
  have hcore : ∀ S : Str, (∀ X, splitScheme (S ++ 58 :: X) = (S, X)) →
      S.isEmpty = false → usesNetloc.contains S = true →
      urlparse (urlunsplit S (lowerStr (urlparse u).netloc)
          (if (urlparse u).path.isEmpty then [47] else (urlparse u).path) (urlparse u).query [])
        = ⟨S, lowerStr (urlparse u).netloc,
           (if (urlparse u).path.isEmpty then [47] else (urlparse u).path), [],
           (urlparse u).query, []⟩ := by
    intro S hs h1 h2
    rw [urlparse_rebuild S _ _ _ hs h1 h2 hN hPAne hB' h35 h63 hQ35 hsemi, hslash]
  have hPAeq : (if (urlparse u).path.isEmpty then [47] else (urlparse u).path)
      = (if (urlparse u).path = [] then pyStr "/" else (urlparse u).path) := by
    by_cases hpe : (urlparse u).path = []
    · rw [if_pos (show (urlparse u).path.isEmpty = true from by rw [hpe]; rfl), if_pos hpe]
      rfl
    · rw [if_neg (show ¬(urlparse u).path.isEmpty = true from by
        intro he
        exact hpe (by
          cases hp : (urlparse u).path with
          | nil => rfl
          | cons a t => rw [hp] at he; exact Bool.noConfusion he)), if_neg hpe]
  by_cases hsch : lowerStr (urlparse u).scheme = pyStr "http" ∨ lowerStr (urlparse u).scheme = pyStr "https"
  · rcases hsch with h | h
    · have hcanon : canonicalize u = urlunsplit (pyStr "http") (lowerStr (urlparse u).netloc)
          (if (urlparse u).path.isEmpty then [47] else (urlparse u).path) (urlparse u).query [] := by
        unfold canonicalize
        dsimp only
        rw [h]
        rfl
      have hfinal := hcanon ▸ hcore (pyStr "http") splitScheme_http rfl (by decide)
      rw [hfinal]
      refine ⟨?_, rfl, hPAeq, rfl, rfl, rfl⟩
      rw [if_pos (Or.inl h), h]
    · have hcanon : canonicalize u = urlunsplit (pyStr "https") (lowerStr (urlparse u).netloc)
          (if (urlparse u).path.isEmpty then [47] else (urlparse u).path) (urlparse u).query [] := by
        unfold canonicalize
        dsimp only
        rw [h]
        rfl
      have hfinal := hcanon ▸ hcore (pyStr "https") splitScheme_https rfl (by decide)
      rw [hfinal]
      refine ⟨?_, rfl, hPAeq, rfl, rfl, rfl⟩
      rw [if_pos (Or.inr h), h]
  · have hb : (lowerStr (urlparse u).scheme == pyStr "http"
        || lowerStr (urlparse u).scheme == pyStr "https") = false := by
      push_neg at hsch
      have h1 : (lowerStr (urlparse u).scheme == pyStr "http") = false := by simpa using hsch.1
      have h2 : (lowerStr (urlparse u).scheme == pyStr "https") = false := by simpa using hsch.2
      rw [h1, h2]
      rfl
    have hcanon : canonicalize u = urlunsplit (pyStr "http") (lowerStr (urlparse u).netloc)
        (if (urlparse u).path.isEmpty then [47] else (urlparse u).path) (urlparse u).query [] := by
      unfold canonicalize
      dsimp only
      rw [hb]
      rfl
    have hfinal := hcanon ▸ hcore (pyStr "http") splitScheme_http rfl (by decide)
    rw [hfinal]
    refine ⟨?_, rfl, hPAeq, rfl, rfl, rfl⟩
    rw [if_neg hsch]

theorem C6_canonicalize_amended_witness :
    (urlparse (canonicalize (pyStr "HTTP://Ex.COM/A?q=1#f"))).scheme
        = (if lowerStr (urlparse (pyStr "HTTP://Ex.COM/A?q=1#f")).scheme = pyStr "http"
             ∨ lowerStr (urlparse (pyStr "HTTP://Ex.COM/A?q=1#f")).scheme = pyStr "https"
           then lowerStr (urlparse (pyStr "HTTP://Ex.COM/A?q=1#f")).scheme else pyStr "http")
    ∧ (urlparse (canonicalize (pyStr "HTTP://Ex.COM/A?q=1#f"))).netloc
        = lowerStr (urlparse (pyStr "HTTP://Ex.COM/A?q=1#f")).netloc
    ∧ (urlparse (canonicalize (pyStr "HTTP://Ex.COM/A?q=1#f"))).path
        = (if (urlparse (pyStr "HTTP://Ex.COM/A?q=1#f")).path = [] then pyStr "/"
           else (urlparse (pyStr "HTTP://Ex.COM/A?q=1#f")).path)
    ∧ (urlparse (canonicalize (pyStr "HTTP://Ex.COM/A?q=1#f"))).query
        = (urlparse (pyStr "HTTP://Ex.COM/A?q=1#f")).query
    ∧ (urlparse (canonicalize (pyStr "HTTP://Ex.COM/A?q=1#f"))).fragment = []
    ∧ (urlparse (canonicalize (pyStr "HTTP://Ex.COM/A?q=1#f"))).params = [] :=
  C6_canonicalize_amended (pyStr "HTTP://Ex.COM/A?q=1#f")
    (by decide) (by decide) (by decide)

/-! ### Claim C9 -/

/-- C9 counterexample: `canonicalize` is not idempotent — the
canonical form of `http:////abc` is `http://abc` (the empty-netloc
`//`-headed path is re-split as an authority), and canonicalizing that
again yields `http://abc/`. -/
theorem C9_counterexample :
    canonicalize (canonicalize (pyStr "http:////abc"))
      ≠ canonicalize (pyStr "http:////abc") := by decide

/-- The emitted path always starts with `/`. -/
theorem slashPath_cons (PA : Str) (h : PA ≠ []) : ∃ t, slashPath PA = 47 :: t := by
  unfold slashPath
  by_cases hh : PA.headD 0 = 47
  · rw [if_pos hh]
    cases PA with
    | nil => exact absurd rfl h
    | cons a t =>
      have ha : a = 47 := by simpa using hh
      exact ⟨t, by rw [ha]⟩
  · exact ⟨PA, by rw [if_neg hh]⟩

/-- Emitting the leading slash twice changes nothing. -/
theorem slashPath_idem (PA : Str) : slashPath (slashPath PA) = slashPath PA := by
  unfold slashPath
  by_cases hh : PA.headD 0 = 47
  · rw [if_pos hh, if_pos hh]
  · rw [if_neg hh, if_pos (show List.headD (47 :: PA) 0 = 47 from rfl)]

/-- C9 amended: `canonicalize` is idempotent on every URL whose
(defaulted) path does not start with `//` while the parsed netloc is
empty and whose final path segment contains no `;`.  The excluded
degenerate inputs can change under a second application, as the
counterexample shows. -/
theorem C9_canonicalize_idem_amended (u : Str)
    (H2 : (urlparse u).netloc = [] →
      (if (urlparse u).path.isEmpty then [47] else (urlparse u).path).take 2 ≠ [47, 47])
    (H3 : (59 : Nat) ∉ lastSegOf (if (urlparse u).path.isEmpty then [47] else (urlparse u).path)) :
    canonicalize (canonicalize u) = canonicalize u := by
  have hPAne : (if (urlparse u).path.isEmpty then [47] else (urlparse u).path) ≠ [] := by
    by_cases h : (urlparse u).path.isEmpty
    · rw [if_pos h]; intro he; exact List.noConfusion he
    · rw [if_neg h]
      intro he
      exact h (by rw [he]; rfl)
  have h35 : (35 : Nat) ∉ (if (urlparse u).path.isEmpty then [47] else (urlparse u).path) := by
    by_cases h : (urlparse u).path.isEmpty
    · rw [if_pos h]; decide
    · rw [if_neg h]; exact urlparse_path_no35 u
  have h63 : (63 : Nat) ∉ (if (urlparse u).path.isEmpty then [47] else (urlparse u).path) := by
    by_cases h : (urlparse u).path.isEmpty
    · rw [if_pos h]; decide
    · rw [if_neg h]; exact urlparse_path_no63 u
  have hNc : ∀ c ∈ (urlparse u).netloc, netlocDelim c = false := by
    rw [urlparse_netloc_eq]
    exact urlsplit_netloc_clean u
  have hN := lowerStr_netloc_clean _ hNc
  have hB' : lowerStr (urlparse u).netloc = [] →
      (if (urlparse u).path.isEmpty then [47] else (urlparse u).path).take 2 ≠ [47, 47] :=
    fun hnl => H2 (List.map_eq_nil_iff.mp hnl)
  have hQ35 : (35 : Nat) ∉ (urlparse u).query := by
    rw [urlparse_query_eq]
    exact urlsplit_query_no35 u
  have hsemi : (59 : Nat) ∉
      lastSegOf (slashPath (if (urlparse u).path.isEmpty then [47] else (urlparse u).path)) := by
    rw [lastSegOf_slashPath]
    exact H3
  obtain ⟨spt, hspt⟩ := slashPath_cons _ hPAne
  have hspne : slashPath (if (urlparse u).path.isEmpty then [47] else (urlparse u).path) ≠ [] := by
    rw [hspt]; exact List.cons_ne_nil _ _
  have hspe : (slashPath (if (urlparse u).path.isEmpty then [47] else (urlparse u).path)).isEmpty = false := by
    rw [hspt]; rfl
  have hB2 : lowerStr (urlparse u).netloc = [] →
      (slashPath (if (urlparse u).path.isEmpty then [47] else (urlparse u).path)).take 2 ≠ [47, 47] := by
    intro hn
    unfold slashPath
    by_cases hh : (if (urlparse u).path.isEmpty then [47] else (urlparse u).path).headD 0 = 47
    · rw [if_pos hh]
      exact hB' hn
    · rw [if_neg hh]
      cases hpa : (if (urlparse u).path.isEmpty then [47] else (urlparse u).path) with
      | nil => exact absurd hpa hPAne
      | cons a t =>
        intro heq
        have ha : a = 47 := by
          have h2 := congrArg (fun l => List.headD (List.tail l) 0) heq
          simpa using h2
        rw [hpa] at hh
        exact hh (by simpa using ha)
  have main : ∀ Sv : Str,
      (∀ X, splitScheme (Sv ++ 58 :: X) = (Sv, X)) →
      Sv.isEmpty = false → usesNetloc.contains Sv = true →
      lowerStr Sv = Sv →
      ((Sv == pyStr "http") || (Sv == pyStr "https")) = true →
      canonicalize u = urlunsplit Sv (lowerStr (urlparse u).netloc)
        (if (urlparse u).path.isEmpty then [47] else (urlparse u).path) (urlparse u).query [] →
      canonicalize (canonicalize u) = canonicalize u := by
    intro Sv hs hSe hUN hlow hcondS hcanon
    have hfinal : urlparse (canonicalize u)
        = ⟨Sv, lowerStr (urlparse u).netloc,
           slashPath (if (urlparse u).path.isEmpty then [47] else (urlparse u).path), [],
           (urlparse u).query, []⟩ := by
      rw [hcanon]
      exact urlparse_rebuild Sv _ _ _ hs hSe hUN hN hPAne hB' h35 h63 hQ35 hsemi
    have hgen : ∀ v : Str, urlparse v
        = ⟨Sv, lowerStr (urlparse u).netloc,
           slashPath (if (urlparse u).path.isEmpty then [47] else (urlparse u).path), [],
           (urlparse u).query, []⟩ →
        canonicalize v = urlunsplit Sv (lowerStr (urlparse u).netloc)
          (slashPath (if (urlparse u).path.isEmpty then [47] else (urlparse u).path))
          (urlparse u).query [] := by
      intro v hv
      unfold canonicalize
      dsimp only
      rw [hv]
      dsimp only
      rw [lowerStr_idem, hlow, hcondS, hspe]
      rfl
    have hsecond := hgen (canonicalize u) hfinal
    have hthird : urlunsplit Sv (lowerStr (urlparse u).netloc)
        (slashPath (if (urlparse u).path.isEmpty then [47] else (urlparse u).path))
        (urlparse u).query []
        = urlunsplit Sv (lowerStr (urlparse u).netloc)
          (if (urlparse u).path.isEmpty then [47] else (urlparse u).path) (urlparse u).query [] := by
      rw [urlunsplit_explicit Sv _ _ _ hSe hUN hspne hB2,
          urlunsplit_explicit Sv _ _ _ hSe hUN hPAne hB',
          slashPath_idem]
    rw [hsecond, hthird, ← hcanon]
  by_cases hsch : lowerStr (urlparse u).scheme = pyStr "http" ∨ lowerStr (urlparse u).scheme = pyStr "https"
  · rcases hsch with h | h
    · refine main (pyStr "http") splitScheme_http rfl (by decide) rfl (by decide) ?_
      unfold canonicalize
      dsimp only
      rw [h]
      rfl
    · refine main (pyStr "https") splitScheme_https rfl (by decide) rfl (by decide) ?_
      unfold canonicalize
      dsimp only
      rw [h]
      rfl
  · refine main (pyStr "http") splitScheme_http rfl (by decide) rfl (by decide) ?_
    have hb : (lowerStr (urlparse u).scheme == pyStr "http"
        || lowerStr (urlparse u).scheme == pyStr "https") = false := by
      push_neg at hsch
      have h1 : (lowerStr (urlparse u).scheme == pyStr "http") = false := by simpa using hsch.1
      have h2 : (lowerStr (urlparse u).scheme == pyStr "https") = false := by simpa using hsch.2
      rw [h1, h2]
      rfl
    unfold canonicalize
    dsimp only
    rw [hb]
    rfl

theorem C9_canonicalize_idem_witness :
    canonicalize (canonicalize (pyStr "http://h/p?x=1")) = canonicalize (pyStr "http://h/p?x=1") :=
  C9_canonicalize_idem_amended (pyStr "http://h/p?x=1") (by decide) (by decide)

end Sfrog
